import Mathlib

/-!
Verification of the excuse-generation backend (src/backend/main.py).

This file shallowly embeds the inference-and-sanitization pipeline of the
service: the lexical classifier `infer_audience_tone`, the style-hint
resolver `age_style_hint`, the tone/audience resolution in the request
handler `generate`, the response sanitizer `filter_and_normalize`, the
fault-tolerant JSON reader `safe_json_parse` (with a faithful model of the
json.loads grammar, of the code-fence-stripping regular expression
substitution, and of the brace-extraction fallback), and the error
propagation of the request handler.

Modelling conventions:
- Python strings are Lean `String`s; character-level operations (lower
  casing, whitespace, substring search) are modelled over `List Char`
  restricted to the ASCII behaviour that the repository exercises.
- Machine-level concerns do not arise (no fixed-width arithmetic).
- Fallible Python code (raised exceptions) is modelled with
  `Except String`; exception message texts that come from the Python
  runtime rather than from the repository are abbreviated representative
  strings (apostrophes that CPython prints around names are elided).
- JSON values are modelled at lexeme level: numbers keep their source
  lexeme and strings keep their raw (undecoded) body.  This equality is
  finer than CPython equality, so proved equalities of parsed values are
  sound for the original program.
-/

set_option maxRecDepth 4000

/-- ASCII whitespace as recognised by the JSON grammar of json.loads. -/
def isJsonWs (c : Char) : Bool :=
  c = ' ' || c = '\t' || c = '\n' || c = '\r'

/-- ASCII fragment of the whitespace class used by Python str.strip,
str.split and the regex class backslash-s. -/
def isPySpace (c : Char) : Bool :=
  c = ' ' || c = '\t' || c = '\n' || c = '\r' || c = '\x0b' || c = '\x0c'

/-- Drop leading JSON whitespace. -/
def skipWs (l : List Char) : List Char := l.dropWhile isJsonWs

/-- Drop trailing Python whitespace. -/
def dropTrailWs (l : List Char) : List Char :=
  (l.reverse.dropWhile isPySpace).reverse

/-- Python str.strip on a character list (ASCII whitespace model). -/
def pyStripChars (l : List Char) : List Char :=
  dropTrailWs (l.dropWhile isPySpace)

/-- Python str.strip. -/
def pyStrip (s : String) : String := String.mk (pyStripChars s.data)

/-- Python str.lower (ASCII model, which is exact on the inputs the
keyword sets and banned phrases exercise). -/
def pyLower (s : String) : String := String.mk (s.data.map Char.toLower)

/-- Python substring membership test `w in t` over character lists. -/
def containsSub (t w : List Char) : Bool :=
  t.tails.any (fun suf => w.isPrefixOf suf)

/-- `any(w in t for w in ws)`: some keyword of `ws` occurs in `t`. -/
def containsAny (t : String) (ws : List String) : Bool :=
  ws.any (fun w => containsSub t.data w.data)

/-- Helper for `wordCount`: the Boolean records whether the scan is
currently inside a run of non-whitespace. -/
def countWordsAux : Bool → List Char → Nat
  | _, [] => 0
  | inw, c :: rest =>
    if isPySpace c then countWordsAux false rest
    else if inw then countWordsAux true rest
    else 1 + countWordsAux true rest

/-- Number of words of Python str.split with no separator argument:
maximal nonempty runs of non-whitespace. -/
def countWords (l : List Char) : Nat := countWordsAux false l

/-- `len(text.split())`. -/
def wordCount (s : String) : Nat := countWords s.data

/-- The banned phrase set BANNED of main.py (main.py lines 48-52). -/
def BANNED : List String :=
  ["doctor note","prescription","fake note","police","court","lawsuit",
   "insurance fraud","bank fraud","illegal","cheat exam","fake sick",
   "medical certificate","tax fraud"]

/-- WORK_WORDS (main.py line 99). -/
def WORK_WORDS : List String :=
  ["work","office","shift","deadline","manager","boss","colleague","meeting",
   "standup","presentation","interview","client","project","deck","call",
   "zoom","teams","slack"]

/-- SCHOOL_WORDS (main.py line 100). -/
def SCHOOL_WORDS : List String :=
  ["school","class","lecture","seminar","professor","teacher","tutor",
   "assignment","exam","mock","campus"]

/-- PARTNER_WORDS (main.py line 101). -/
def PARTNER_WORDS : List String :=
  ["partner","girlfriend","boyfriend","fiancé","fiance","husband","wife",
   "date","anniversary","relationship"]

/-- FRIEND_WORDS (main.py line 102). -/
def FRIEND_WORDS : List String :=
  ["friend","mate","hangout","drink","party","birthday","pub"]

/-- FAMILY_WORDS (main.py line 103). -/
def FAMILY_WORDS : List String :=
  ["mum","dad","mother","father","parents","sister","brother","family",
   "cousin","aunt","uncle"]

/-- SERIOUS_WORDS (main.py line 104). -/
def SERIOUS_WORDS : List String :=
  ["upset","hurt","argument","sorry","apologise","apologize","forgot",
   "missed","trust","let down"]

/-- MINOR_DELAY_WORDS (main.py line 105). -/
def MINOR_DELAY_WORDS : List String :=
  ["late","delay","running","traffic","train","bus","tube","metrolink",
   "tram","signal","wifi","internet","connection","battery"]

/-- The lexical classifier infer_audience_tone (main.py lines 107-151).
The set union of the Python source is modelled by list append, which has
the same membership. -/
def infer_audience_tone (s : String) : String × String :=
  let t := pyLower s
  if containsAny t (["boss","manager"] ++ WORK_WORDS) then
    if containsSub t.data "client".data then ("Client", "formal")
    else if containsAny t ["colleague","coworker","teammate"] then
      ("Colleague", "formal")
    else ("Boss / Manager", "formal")
  else if containsAny t (SCHOOL_WORDS ++ ["teacher","tutor","professor"]) then
    ("Teacher / Tutor", "formal")
  else if containsAny t PARTNER_WORDS then
    ("Partner",
      if containsAny t SERIOUS_WORDS then "sincere"
      else if containsAny t MINOR_DELAY_WORDS then "light-humour"
      else "sincere")
  else if containsAny t FRIEND_WORDS then ("Friend", "light-humour")
  else if containsAny t FAMILY_WORDS then ("Parent / Family", "sincere")
  else
    ("General", if containsAny t MINOR_DELAY_WORDS then "sincere" else "sincere")

/-- age_style_hint (main.py lines 153-160); ages are modelled as integers,
so negative ages fall in the first band exactly as in the source. -/
def age_style_hint (age : Int) : String :=
  if age < 18 then "Keep phrasing simple and clear (under 18)."
  else if age < 30 then "Modern, natural phrasing; avoid heavy slang."
  else if age < 45 then "Neutral professional phrasing."
  else "Slightly more formal, straightforward phrasing (age 45+)."

/-- JSON values as produced by json.loads, at lexeme level: `num` keeps
the source lexeme (avoiding float semantics) and `str` keeps the raw
undecoded body of the literal.  This representation is finer than CPython
value equality, so proved equalities are sound for the original program.
Duplicate object keys are kept in order; lookups take the last binding,
matching dict construction. -/
inductive Json where
  | null : Json
  | bool (b : Bool) : Json
  | num (lex : String) : Json
  | str (raw : String) : Json
  | arr (elems : List Json) : Json
  | obj (fields : List (String × Json)) : Json

mutual

/-- Structural equality test on JSON values. -/
def Json.beq : Json → Json → Bool
  | .null, .null => true
  | .bool a, .bool b => a == b
  | .num a, .num b => a == b
  | .str a, .str b => a == b
  | .arr a, .arr b => Json.beqElems a b
  | .obj a, .obj b => Json.beqFields a b
  | _, _ => false

/-- Structural equality test on JSON value lists. -/
def Json.beqElems : List Json → List Json → Bool
  | [], [] => true
  | x :: xs, y :: ys => Json.beq x y && Json.beqElems xs ys
  | _, _ => false

/-- Structural equality test on JSON object field lists. -/
def Json.beqFields : List (String × Json) → List (String × Json) → Bool
  | [], [] => true
  | (k, v) :: xs, (k2, v2) :: ys =>
    k == k2 && Json.beq v v2 && Json.beqFields xs ys
  | _, _ => false

end

instance : BEq Json := ⟨Json.beq⟩

/-- ASCII decimal digit, phrased on code points. -/
def isDigitC (c : Char) : Bool := 48 ≤ c.toNat && c.toNat ≤ 57

/-- ASCII hexadecimal digit, phrased on code points. -/
def isHexDigitC (c : Char) : Bool :=
  isDigitC c || (97 ≤ c.toNat && c.toNat ≤ 102) ||
    (65 ≤ c.toNat && c.toNat ≤ 70)

/-- The characters a JSON number lexeme may contain. -/
def isNumChar (c : Char) : Bool :=
  isDigitC c || c = '-' || c = '+' || c = '.' || c = 'e' || c = 'E'

/-- Body of a JSON string literal, after the opening quote: returns the
raw body characters and the input after the closing quote.  Escape
sequences are validated and kept raw; unescaped control characters are
rejected exactly as by json.loads in strict mode. -/
def parseStrChars : List Char → Option (List Char × List Char)
  | [] => none
  | '\"' :: rest => some ([], rest)
  | '\\' :: 'u' :: a :: b :: c :: d :: rest3 =>
    if isHexDigitC a && isHexDigitC b && isHexDigitC c && isHexDigitC d then
      match parseStrChars rest3 with
      | some (cs, r) => some ('\\' :: 'u' :: a :: b :: c :: d :: cs, r)
      | none => none
    else none
  | '\\' :: e :: rest2 =>
    if e = 'u' then none
    else if e = '\"' || e = '\\' || e = '/' || e = 'b' || e = 'f' ||
            e = 'n' || e = 'r' || e = 't' then
      match parseStrChars rest2 with
      | some (cs, r) => some ('\\' :: e :: cs, r)
      | none => none
    else none
  | ['\\'] => none
  | c :: rest =>
    if c.toNat < 32 then none
    else
      match parseStrChars rest with
      | some (cs, r) => some (c :: cs, r)
      | none => none

/-- Integer part of the JSON number grammar: 0, or a nonzero digit
followed by digits. -/
def parseIntDigits : List Char → Option (List Char × List Char)
  | '0' :: r => some (['0'], r)
  | c :: r =>
    if isDigitC c then
      some (c :: r.takeWhile isDigitC, r.dropWhile isDigitC)
    else none
  | [] => none

/-- Optional fractional part: a dot followed by at least one digit,
otherwise nothing is consumed. -/
def parseFracPart (l : List Char) : List Char × List Char :=
  match l with
  | '.' :: r =>
    let ds := r.takeWhile isDigitC
    if ds.isEmpty then ([], l) else ('.' :: ds, r.dropWhile isDigitC)
  | _ => ([], l)

/-- Optional exponent part: e or E, optional sign, at least one digit,
otherwise nothing is consumed. -/
def parseExpPart (l : List Char) : List Char × List Char :=
  match l with
  | e :: r =>
    if e = 'e' || e = 'E' then
      match r with
      | s :: r2 =>
        if s = '+' || s = '-' then
          let ds := r2.takeWhile isDigitC
          if ds.isEmpty then ([], l)
          else (e :: s :: ds, r2.dropWhile isDigitC)
        else
          let ds := r.takeWhile isDigitC
          if ds.isEmpty then ([], l) else (e :: ds, r.dropWhile isDigitC)
      | [] => ([], l)
    else ([], l)
  | [] => ([], l)

/-- A JSON number lexeme (the regex NUMBER_RE of the json module). -/
def parseNumLex (l : List Char) : Option (List Char × List Char) :=
  let p : List Char × List Char :=
    match l with
    | '-' :: r => (['-'], r)
    | _ => ([], l)
  match parseIntDigits p.2 with
  | none => none
  | some (ip, l2) =>
    let fp := parseFracPart l2
    let ep := parseExpPart fp.2
    some (p.1 ++ ip ++ fp.1 ++ ep.1, ep.2)

/-- Result of one layer of the json.loads scanner. -/
inductive PRes where
  | val (j : Json) : PRes
  | mems (fs : List (String × Json)) : PRes
  | elems (es : List Json) : PRes

/-- Mode of the scanner: a value, the members of an object after its
opening brace (first non-whitespace position), or the elements of an
array after its opening bracket (first non-whitespace position). -/
inductive PMode where
  | val : PMode
  | mems : PMode
  | elems : PMode
deriving DecidableEq

/-- The json.loads scanner: values, object members and array elements,
fuelled so that the kernel can evaluate it.  Mirrors py_make_scanner:
keywords, numbers (including NaN, Infinity, -Infinity), strict strings,
objects and arrays with the whitespace placement of the C scanner. -/
def parseF : Nat → PMode → List Char → Option (PRes × List Char)
  | 0, _, _ => none
  | Nat.succ f, PMode.val, l =>
    match l with
    | [] => none
    | c :: rest =>
      if c = '\"' then
        match parseStrChars rest with
        | some (cs, r) => some (.val (.str (String.mk cs)), r)
        | none => none
      else if c = '\x7b' then
        match skipWs rest with
        | [] => none
        | c2 :: r2 =>
          if c2 = '\x7d' then some (.val (.obj []), r2)
          else
            match parseF f PMode.mems (c2 :: r2) with
            | some (.mems fs, r3) => some (.val (.obj fs), r3)
            | _ => none
      else if c = '[' then
        match skipWs rest with
        | [] => none
        | c2 :: r2 =>
          if c2 = ']' then some (.val (.arr []), r2)
          else
            match parseF f PMode.elems (c2 :: r2) with
            | some (.elems es, r3) => some (.val (.arr es), r3)
            | _ => none
      else if c = 't' && ['r', 'u', 'e'].isPrefixOf rest then
        some (.val (.bool true), rest.drop 3)
      else if c = 'f' && ['a', 'l', 's', 'e'].isPrefixOf rest then
        some (.val (.bool false), rest.drop 4)
      else if c = 'n' && ['u', 'l', 'l'].isPrefixOf rest then
        some (.val .null, rest.drop 3)
      else if c = 'N' && ['a', 'N'].isPrefixOf rest then
        some (.val (.num "NaN"), rest.drop 2)
      else if c = 'I' && ['n', 'f', 'i', 'n', 'i', 't', 'y'].isPrefixOf rest then
        some (.val (.num "Infinity"), rest.drop 7)
      else
        match parseNumLex (c :: rest) with
        | some (lex, r) => some (.val (.num (String.mk lex)), r)
        | none =>
          if c = '-' && ['I', 'n', 'f', 'i', 'n', 'i', 't', 'y'].isPrefixOf rest
          then some (.val (.num "-Infinity"), rest.drop 8)
          else none
  | Nat.succ f, PMode.mems, l =>
    match l with
    | [] => none
    | c :: rest =>
      if c = '\"' then
        match parseStrChars rest with
        | none => none
        | some (kcs, r1) =>
          match skipWs r1 with
          | [] => none
          | c2 :: r2 =>
            if c2 = ':' then
              match parseF f PMode.val (skipWs r2) with
              | some (.val v, r3) =>
                (match skipWs r3 with
                 | [] => none
                 | c4 :: r4 =>
                   if c4 = ',' then
                     match parseF f PMode.mems (skipWs r4) with
                     | some (.mems fs, r5) =>
                       some (.mems ((String.mk kcs, v) :: fs), r5)
                     | _ => none
                   else if c4 = '\x7d' then
                     some (.mems [(String.mk kcs, v)], r4)
                   else none)
              | _ => none
            else none
      else none
  | Nat.succ f, PMode.elems, l =>
    match parseF f PMode.val l with
    | some (.val v, r1) =>
      (match skipWs r1 with
       | [] => none
       | c2 :: r2 =>
         if c2 = ',' then
           match parseF f PMode.elems (skipWs r2) with
           | some (.elems es, r3) => some (.elems (v :: es), r3)
           | _ => none
         else if c2 = ']' then some (.elems [v], r2)
         else none)
    | _ => none

/-- One JSON value starting at the head of the input. -/
def parseValue (f : Nat) (l : List Char) : Option (Json × List Char) :=
  match parseF f PMode.val l with
  | some (PRes.val v, r) => some (v, r)
  | _ => none

/-- json.loads on a character list: skip leading whitespace, read one
value, require only whitespace after it.  The fuel is sufficient for
every input because each recursion step consumes at least one character. -/
def parseJsonList (l : List Char) : Option Json :=
  match parseValue (l.length + 1) (skipWs l) with
  | some (v, rest) => if (skipWs rest).isEmpty then some v else none
  | none => none

/-- json.loads on a string, returning none on any JSONDecodeError. -/
def parseJson (s : String) : Option Json := parseJsonList s.data

/-- First alternative of the fence-stripping pattern of safe_json_parse:
three backticks at a line start, an optional case-insensitive json tag,
then greedy whitespace.  Returns the consumed prefix and the rest. -/
def alt1Split (lineStart : Bool) (l : List Char) : Option (List Char × List Char) :=
  if lineStart then
    match l with
    | c1 :: c2 :: c3 :: r =>
      if c1 = '\x60' && c2 = '\x60' && c3 = '\x60' then
        let p : List Char × List Char :=
          match r with
          | a :: b :: c :: d :: r2 =>
            if a.toLower = 'j' && b.toLower = 's' && c.toLower = 'o' &&
               d.toLower = 'n'
            then ([a, b, c, d], r2) else ([], r)
          | _ => ([], r)
        some (c1 :: c2 :: c3 :: (p.1 ++ p.2.takeWhile isPySpace),
              p.2.dropWhile isPySpace)
      else none
    | _ => none
  else none

/-- Second alternative of the fence-stripping pattern: greedy whitespace,
three backticks, then the multiline end anchor, which matches at the end
of the input or just before a newline (without consuming it). -/
def alt2Split (l : List Char) : Option (List Char × List Char) :=
  match l.dropWhile isPySpace with
  | c1 :: c2 :: c3 :: r =>
    if c1 = '\x60' && c2 = '\x60' && c3 = '\x60' then
      match r with
      | [] => some (l.takeWhile isPySpace ++ ['\x60', '\x60', '\x60'], [])
      | c4 :: _ =>
        if c4 = '\n' then
          some (l.takeWhile isPySpace ++ ['\x60', '\x60', '\x60'], r)
        else none
    else none
  | _ => none

/-- One left-to-right pass of re.sub with the fence pattern: at each
position try the first alternative (its line-start anchor consulting the
previous character of the original text), then the second; on a match,
drop it and resume after it.  Fuelled for kernel evaluation; the fuel
`length + 1` is sufficient since every step consumes at least one
character. -/
def reSubF : Nat → Option Char → List Char → List Char
  | 0, _, l => l
  | Nat.succ f, prev, l =>
    match l with
    | [] => []
    | c :: rest =>
      match alt1Split (prev = none || prev = some '\n') l with
      | some (con, r) => reSubF f con.getLast? r
      | none =>
        match alt2Split l with
        | some (con, r) => reSubF f con.getLast? r
        | none => c :: reSubF f (some c) rest

/-- re.sub of the fence pattern with the empty replacement. -/
def reSub (l : List Char) : List Char := reSubF (l.length + 1) none l

/-- The brace-extraction fallback of safe_json_parse: the regex
curly-open dot-star curly-close with DOTALL finds, if any open brace is
followed by a later close brace, the segment from the first open brace to
the last close brace of the input. -/
def braceExtract (l : List Char) : Option (List Char) :=
  let pre := l.takeWhile (fun c => c ≠ '\x7b')
  let after := l.drop pre.length
  match after with
  | [] => none
  | _ :: _ =>
    let revTail := after.reverse.takeWhile (fun c => c ≠ '\x7d')
    let cand := after.take (after.length - revTail.length)
    if cand.length ≥ 2 then some cand else none

/-- safe_json_parse (main.py lines 66-80): try json.loads directly, then
after stripping code fences from the stripped text, then on the first
greedy brace-delimited segment; the error strings stand for the
JSONDecodeError message and the ValueError of the source. -/
def safe_json_parse (content : String) : Except String Json :=
  match parseJson content with
  | some v => .ok v
  | none =>
    match parseJsonList (reSub (pyStripChars content.data)) with
    | some v => .ok v
    | none =>
      match braceExtract content.data with
      | some sub =>
        (match parseJsonList sub with
         | some v => .ok v
         | none => .error "Expecting value")
      | none => .error "Model returned invalid JSON"

/-- Wrap a string in triple-backtick code fences, optionally with the
json language tag. -/
def wrapFence (tag : Bool) (s : String) : String :=
  (if tag then "```json\n" else "```\n") ++ s ++ "\n```"

/-- Last binding of a key in a parsed object, matching the dict that
json.loads builds when keys repeat. -/
def lookupLast (k : String) (fields : List (String × Json)) : Option Json :=
  match fields.reverse.find? (fun p => p.1 == k) with
  | some p => some p.2
  | none => none

/-- Whether a JSON number lexeme denotes zero (hence is falsy in
Python); the exponent cannot make a zero mantissa nonzero.  NaN and the
infinities contain no digit and are truthy. -/
def jsonNumIsZero (lex : String) : Bool :=
  let m := lex.data.takeWhile (fun c => c ≠ 'e' && c ≠ 'E')
  m.any isDigitC && m.all (fun c => !(isDigitC c && c ≠ '0'))

/-- The expression `(opt.get("text") or "")` of filter_and_normalize:
a non-dict entry has no get attribute and raises; a missing key or falsy
value yields the empty string; a truthy non-string value raises at the
strip call.  Exception messages are representative labels. -/
def get_text_or_empty (opt : Json) : Except String String :=
  match opt with
  | .obj fields =>
    (match lookupLast "text" fields with
     | none => .ok ""
     | some .null => .ok ""
     | some (.bool false) => .ok ""
     | some (.bool true) => .error "AttributeError: bool object has no attribute strip"
     | some (.str s) => .ok s
     | some (.num lex) =>
       if jsonNumIsZero lex then .ok ""
       else .error "AttributeError: number object has no attribute strip"
     | some (.arr l) =>
       if l.isEmpty then .ok ""
       else .error "AttributeError: list object has no attribute strip"
     | some (.obj fs) =>
       if fs.isEmpty then .ok ""
       else .error "AttributeError: dict object has no attribute strip")
  | _ => .error "AttributeError: object has no attribute get"

/-- Whether a candidate text contains some banned phrase,
case-insensitively: `any(bad in low for bad in BANNED)`. -/
def hitsBanned (text : String) : Bool :=
  BANNED.any (fun bad => containsSub (pyLower text).data bad.data)

/-- The loop body of filter_and_normalize over the first limit entries:
strip, drop empties, drop banned, drop over-long, keep the rest in
order; a raised exception aborts the whole call. -/
def filterOptionsLoop : List Json → Except String (List String)
  | [] => .ok []
  | opt :: rest =>
    match get_text_or_empty opt with
    | .error e => .error e
    | .ok raw =>
      let text := pyStrip raw
      if text = "" then filterOptionsLoop rest
      else if hitsBanned text then filterOptionsLoop rest
      else if wordCount text > 50 then filterOptionsLoop rest
      else
        match filterOptionsLoop rest with
        | .ok out => .ok (text :: out)
        | .error e => .error e

/-- The fixed fallback option text of filter_and_normalize. -/
def FALLBACK_TEXT : String :=
  "Running a few minutes behind after a connection hiccup—back online shortly."

/-- filter_and_normalize (main.py lines 82-96); each returned string
stands for the single-field dict with key text that the source builds
around it. -/
def filter_and_normalize (options : List Json) (limit : Nat) :
    Except String (List String) :=
  match filterOptionsLoop (options.take limit) with
  | .ok out => .ok (if out.isEmpty then [FALLBACK_TEXT] else out)
  | .error e => .error e

/-- `completion.choices[0].message.content or "{}"`: a missing or empty
content string is replaced by the empty JSON object text. -/
def content_of (c : Option String) : String :=
  match c with
  | some s => if s = "" then "\x7b\x7d" else s
  | none => "\x7b\x7d"

/-- The guard `if "options" not in data or not isinstance(data["options"],
list)` of the handler, with the Python semantics of the in operator and
of subscripts at every value shape; runtime messages are representative
labels. -/
def getOptionsList (data : Json) : Except String (List Json) :=
  match data with
  | .obj fields =>
    (match lookupLast "options" fields with
     | some (.arr l) => .ok l
     | some _ => .error "JSON missing options list"
     | none => .error "JSON missing options list")
  | .arr l =>
    if l.contains (.str "options") then
      .error "TypeError: list indices must be integers"
    else .error "JSON missing options list"
  | .str s =>
    if containsSub s.data "options".data then
      .error "TypeError: string indices must be integers"
    else .error "JSON missing options list"
  | _ => .error "TypeError: argument is not iterable"

/-- The body of the try block of the generate handler (main.py lines
198-213): the remote call (given as an already-resolved result), JSON
recovery, the options-shape guard, then sanitization. -/
def run_pipeline (completionResult : Except String (Option String))
    (variants : Nat) : Except String (List String) :=
  match completionResult with
  | .error e => .error e
  | .ok contentOpt =>
    match safe_json_parse (content_of contentOpt) with
    | .error e => .error e
    | .ok data =>
      match getOptionsList data with
      | .error e => .error e
      | .ok opts => filter_and_normalize opts variants

/-- The generate handler with its except clause (main.py lines 214-215):
any failure becomes an HTTP 500 whose detail is the failure message. -/
def generate_handler (completionResult : Except String (Option String))
    (variants : Nat) : Except (Nat × String) (List String) :=
  match run_pipeline completionResult variants with
  | .ok options => .ok options
  | .error e => .error (500, e)

/-- The valid tone values accepted by the handler. -/
def VALID_TONES : List String := ["sincere", "formal", "light-humour"]

/-- Python `x or d` for an optional string: none and the empty string
are falsy. -/
def pyOrStr (v : Option String) (d : String) : String :=
  match v with
  | none => d
  | some s => if s = "" then d else s

/-- Tone resolution of the handler (main.py lines 172-174):
`tone_final = (req.tone or inferred_tone).lower()`, reset to the
inferred tone when not a valid tone. -/
def resolve_tone (reqTone : Option String) (inferredTone : String) : String :=
  let tf := pyLower (pyOrStr reqTone inferredTone)
  if VALID_TONES.contains tf then tf else inferredTone

/-- Audience resolution of the handler (main.py line 171):
`audience_final = req.audience or inferred_audience`. -/
def resolve_audience (reqAud : Option String) (inferredAud : String) : String :=
  pyOrStr reqAud inferredAud

/-- The request model GenerateReq (main.py lines 27-42); the unused
constraints mapping is omitted, and variants is a natural number whose
pydantic bounds 1-5 appear as hypotheses where claims need them. -/
structure GenerateReq where
  name : String
  age : Int
  scenario : String
  tone : Option String := none
  gender : Option String := none
  audience : Option String := none
  location : Option String := none
  role : Option String := none
  commute : Option String := none
  platform : Option String := none
  slang : Bool := false
  variants : Nat := 1

/-- One optional persona fragment: included only when the field is
present and truthy, as in the `if req.field:` guards. -/
def optBit (label : String) (v : Option String) : List String :=
  match v with
  | none => []
  | some s => if s = "" then [] else [label ++ ": " ++ s]

/-- The persona fragment list persona_bits of the handler (main.py lines
177-187), in source order; age is always present. -/
def persona_bits (req : GenerateReq) (audience_final tone_final : String) :
    List String :=
  optBit "Location" req.location ++ optBit "Role" req.role ++
  optBit "Gender" req.gender ++ ["Age: " ++ toString req.age] ++
  optBit "Commute" req.commute ++ optBit "Platform" req.platform ++
  (if audience_final = "" then [] else ["Audience: " ++ audience_final]) ++
  ["Tone: " ++ tone_final] ++
  (if req.slang then ["Style: light slang allowed"] else []) ++
  [age_style_hint req.age]

/-- String join with a separator, as str.join. -/
def joinSep (sep : String) : List String → String
  | [] => ""
  | [x] => x
  | x :: xs => x ++ sep ++ joinSep sep xs

/-- `persona_str = " | ".join(persona_bits)`. -/
def persona_str (req : GenerateReq) (audience_final tone_final : String) :
    String :=
  joinSep " | " (persona_bits req audience_final tone_final)

/-- The text field of a well-formed options entry: present exactly when
the entry is an object whose last text binding is a string. -/
def entryTextStr (opt : Json) : Option String :=
  match opt with
  | .obj fields =>
    (match lookupLast "text" fields with
     | some (.str s) => some s
     | _ => none)
  | _ => none

/-- A well-formed options entry that survives every filter of
filter_and_normalize: a string text field that is nonempty after
stripping, hits no banned phrase, and has at most fifty words. -/
def validEntry (opt : Json) : Bool :=
  match entryTextStr opt with
  | some t =>
    !(pyStrip t).isEmpty && !hitsBanned (pyStrip t) &&
      decide (wordCount (pyStrip t) ≤ 50)
  | none => false

/-- The eight audience labels the classifier can produce. -/
def AUDIENCE_LABELS : List String :=
  ["Boss / Manager", "Client", "Colleague", "Teacher / Tutor", "Partner",
   "Friend", "Parent / Family", "General"]

/-- Every backtick of the list is flanked on both sides, within the
list, by characters that are not newlines.  On a text with this shape
the fence-stripping pattern can match neither at a line start (first
alternative) nor at a line end (second alternative) strictly inside the
text. -/
def FlankFree (l : List Char) : Prop :=
  ∀ a b, l = a ++ '\x60' :: b →
    (∃ x, a.getLast? = some x ∧ x ≠ '\n') ∧
    (∃ y, b.head? = some y ∧ y ≠ '\n')

/-- The region a successful scanner call consumes: fence-free, nonempty,
and delimited by characters that are neither whitespace nor backticks
(value starters on the left, closing tokens on the right). -/
def GoodCon (con : List Char) : Prop :=
  FlankFree con ∧ con ≠ [] ∧
  (∀ c, con.head? = some c → isPySpace c = false ∧ c ≠ '\x60') ∧
  (∀ c, con.getLast? = some c → isPySpace c = false ∧ c ≠ '\x60')

/-- The head of the list, if any, cannot extend a JSON number lexeme:
it is no digit, no dot, and no exponent letter. -/
def noNumExt (l : List Char) : Prop :=
  ∀ c, l.head? = some c → isDigitC c = false ∧ c ≠ '.' ∧ c ≠ 'e' ∧ c ≠ 'E'

/-- The characters that can start a JSON value. -/
def valHeadOK (c : Char) : Prop :=
  c = '\"' ∨ c = '\x7b' ∨ c = '[' ∨ c = 't' ∨ c = 'f' ∨ c = 'n' ∨
  c = 'N' ∨ c = 'I' ∨ c = '-' ∨ isDigitC c = true

/-- The head shape of a region consumed in a given scanner mode: object
members start at a quote; values and array elements start at a value
starter. -/
def headFacts : PMode → List Char → Prop
  | PMode.mems, con => ∃ t, con = '\"' :: t
  | _, con => ∀ c, con.head? = some c → valHeadOK c

/-! ## Helper lemmas -/

/-- Dropping while a predicate holds is idempotent. -/
theorem dropWhile_idem (p : Char → Bool) (l : List Char) :
    (l.dropWhile p).dropWhile p = l.dropWhile p := by
  induction l with
  | nil => rfl
  | cons c rest ih =>
    by_cases h : p c <;> simp [List.dropWhile_cons, h, ih]

/-- A list is its own leading-whitespace drop followed by nothing when
its head fails the predicate. -/
theorem dropWhile_eq_self_of_head (p : Char → Bool) (l : List Char)
    (h : ∀ c, l.head? = some c → p c = false) : l.dropWhile p = l := by
  cases l with
  | nil => rfl
  | cons c rest =>
    have hc := h c rfl
    simp [List.dropWhile_cons, hc]

/-- Every list splits as a consumed prefix plus its dropWhile. -/
theorem dropWhile_append_split (p : Char → Bool) (l : List Char) :
    ∃ a, l = a ++ l.dropWhile p ∧ ∀ c ∈ a, p c = true := by
  induction l with
  | nil => exact ⟨[], rfl, by simp⟩
  | cons c rest ih =>
    by_cases h : p c
    · obtain ⟨a, ha, hall⟩ := ih
      refine ⟨c :: a, ?_, ?_⟩
      · simp only [List.dropWhile_cons, h, if_true, List.cons_append]
        exact congrArg (c :: ·) ha
      · intro d hd
        rcases List.mem_cons.mp hd with rfl | hd
        · exact h
        · exact hall d hd
    · exact ⟨[], by simp [List.dropWhile_cons, h], by simp⟩

/-- The head surviving a dropWhile fails the predicate. -/
theorem head_dropWhile_not (p : Char → Bool) (l : List Char) (c : Char)
    (h : (l.dropWhile p).head? = some c) : p c = false := by
  induction l with
  | nil => simp [List.dropWhile] at h
  | cons d t ih =>
    rw [List.dropWhile_cons] at h
    by_cases hd : p d
    · rw [if_pos hd] at h
      exact ih h
    · rw [if_neg hd] at h
      simp at h
      rw [← h]
      simpa using hd

/-- dropTrailWs is idempotent. -/
theorem dropTrailWs_idem (l : List Char) :
    dropTrailWs (dropTrailWs l) = dropTrailWs l := by
  unfold dropTrailWs
  rw [List.reverse_reverse, dropWhile_idem]

/-- The head of dropTrailWs, when present, is the head of the list. -/
theorem dropTrailWs_head (l : List Char) (c : Char)
    (h : (dropTrailWs l).head? = some c) : l.head? = some c := by
  unfold dropTrailWs at h
  obtain ⟨a, ha, _⟩ := dropWhile_append_split isPySpace l.reverse
  have hl : l = (l.reverse.dropWhile isPySpace).reverse ++ a.reverse := by
    conv_lhs => rw [← l.reverse_reverse, ha]
    simp
  rw [hl]
  cases hr : (l.reverse.dropWhile isPySpace).reverse with
  | nil => rw [hr] at h; simp at h
  | cons d t => rw [hr] at h; simp at h ⊢; exact h

/-- Python strip is idempotent. -/
theorem pyStripChars_idem (l : List Char) :
    pyStripChars (pyStripChars l) = pyStripChars l := by
  unfold pyStripChars
  rw [dropWhile_eq_self_of_head isPySpace (dropTrailWs (l.dropWhile isPySpace)),
    dropTrailWs_idem]
  intro c hc
  exact head_dropWhile_not isPySpace l c (dropTrailWs_head _ _ hc)

/-- Python strip is idempotent, string form. -/
theorem pyStrip_idem (s : String) : pyStrip (pyStrip s) = pyStrip s := by
  unfold pyStrip
  exact congrArg String.mk (pyStripChars_idem s.data)

/-- The classifier only emits lowercase valid tones. -/
theorem infer_tone_mem (s : String) :
    (infer_audience_tone s).2 ∈ VALID_TONES := by
  simp only [infer_audience_tone]
  split_ifs <;> simp [VALID_TONES]

/-- The three valid tones are fixed by lowercasing. -/
theorem tone_lower_fix (t : String) (h : t ∈ VALID_TONES) :
    pyLower t = t := by
  fin_cases h <;> rfl

/-- Tone resolution always lands in the valid tone set. -/
theorem resolve_tone_mem (rt : Option String) (it : String)
    (h : it ∈ VALID_TONES) : resolve_tone rt it ∈ VALID_TONES := by
  simp only [resolve_tone]
  split_ifs with hc
  · exact List.mem_of_elem_eq_true hc
  · exact h

/-! ## Claim C1 -/

/-- Claim C1 counterexample: the scenario "colleague" contains a
work-set term and no "client", yet the classifier refines the audience
to Colleague, not Boss / Manager. -/
theorem c1_counterexample :
    containsAny (pyLower "colleague") (["boss", "manager"] ++ WORK_WORDS) = true ∧
    containsSub (pyLower "colleague").data "client".data = false ∧
    infer_audience_tone "colleague" ≠ ("Boss / Manager", "formal") ∧
    infer_audience_tone "colleague" = ("Colleague", "formal") := by
  refine ⟨by decide, by decide, by decide, by decide⟩

/-- Claim C1 (amended): for every scenario whose lower-cased text
contains a work-set term, does not contain "client", and contains none
of colleague, coworker, teammate, the classifier returns
(Boss / Manager, formal). -/
theorem c1_work_boss_manager (s : String)
    (h1 : containsAny (pyLower s) (["boss", "manager"] ++ WORK_WORDS) = true)
    (h2 : containsSub (pyLower s).data "client".data = false)
    (h3 : containsAny (pyLower s) ["colleague", "coworker", "teammate"] = false) :
    infer_audience_tone s = ("Boss / Manager", "formal") := by
  simp only [infer_audience_tone, h1, h2, h3]
  simp

/-- Witness for C1 at the scenario "boss". -/
theorem c1_witness : infer_audience_tone "boss" = ("Boss / Manager", "formal") :=
  c1_work_boss_manager "boss" (by decide) (by decide) (by decide)

/-! ## Claim C3 -/

/-- Claim C3 counterexample: "boss wife upset" contains the partner term
wife and the serious word upset, yet the work branch fires first and the
classifier returns (Boss / Manager, formal), not (Partner, sincere). -/
theorem c3_counterexample :
    containsAny (pyLower "boss wife upset") PARTNER_WORDS = true ∧
    containsAny (pyLower "boss wife upset") SERIOUS_WORDS = true ∧
    infer_audience_tone "boss wife upset" ≠ ("Partner", "sincere") ∧
    infer_audience_tone "boss wife upset" = ("Boss / Manager", "formal") := by
  refine ⟨by decide, by decide, by decide, by decide⟩

/-- Claim C3 (amended): for every scenario whose lower-cased text
contains a partner-set term and a serious-set word and contains no
work-set and no school-set term, the classifier returns
(Partner, sincere). -/
theorem c3_partner_serious (s : String)
    (hw : containsAny (pyLower s) (["boss", "manager"] ++ WORK_WORDS) = false)
    (hs : containsAny (pyLower s)
      (SCHOOL_WORDS ++ ["teacher", "tutor", "professor"]) = false)
    (hp : containsAny (pyLower s) PARTNER_WORDS = true)
    (hse : containsAny (pyLower s) SERIOUS_WORDS = true) :
    infer_audience_tone s = ("Partner", "sincere") := by
  simp only [infer_audience_tone, hw, hs, hp, hse]
  simp

/-- Witness for C3 at the scenario "wife upset". -/
theorem c3_witness : infer_audience_tone "wife upset" = ("Partner", "sincere") :=
  c3_partner_serious "wife upset" (by decide) (by decide) (by decide) (by decide)

/-! ## Claim C6 -/

/-- Claim C6: age_style_hint is total over the integers and maps the four
age bands, negative ages included, to their fixed directive strings. -/
theorem c6_age_bands (a : Int) :
    (a < 18 → age_style_hint a = "Keep phrasing simple and clear (under 18).") ∧
    (18 ≤ a → a < 30 →
      age_style_hint a = "Modern, natural phrasing; avoid heavy slang.") ∧
    (30 ≤ a → a < 45 → age_style_hint a = "Neutral professional phrasing.") ∧
    (45 ≤ a →
      age_style_hint a =
        "Slightly more formal, straightforward phrasing (age 45+).") := by
  unfold age_style_hint
  refine ⟨fun h => ?_, fun h1 h2 => ?_, fun h1 h2 => ?_, fun h => ?_⟩ <;>
    split_ifs <;> first | rfl | omega

/-- Witness for C6 with one age in each band, a negative age included. -/
theorem c6_witness :
    age_style_hint (-5) = "Keep phrasing simple and clear (under 18)." ∧
    age_style_hint 25 = "Modern, natural phrasing; avoid heavy slang." ∧
    age_style_hint 40 = "Neutral professional phrasing." ∧
    age_style_hint 70 =
      "Slightly more formal, straightforward phrasing (age 45+)." :=
  ⟨(c6_age_bands (-5)).1 (by decide),
   (c6_age_bands 25).2.1 (by decide) (by decide),
   (c6_age_bands 40).2.2.1 (by decide) (by decide),
   (c6_age_bands 70).2.2.2 (by decide)⟩

/-! ## Claim C10 -/

/-- Claim C10: for every scenario the classifier returns one of the
eight fixed audience labels and one of the three valid tones, and the
tone the handler finally resolves is always a valid tone, whatever the
request supplies. -/
theorem c10_label_invariant (s : String) :
    (infer_audience_tone s).1 ∈ AUDIENCE_LABELS ∧
    (infer_audience_tone s).2 ∈ VALID_TONES ∧
    ∀ reqTone : Option String,
      resolve_tone reqTone (infer_audience_tone s).2 ∈ VALID_TONES := by
  refine ⟨?_, infer_tone_mem s, fun rt => resolve_tone_mem rt _ (infer_tone_mem s)⟩
  simp only [infer_audience_tone]
  split_ifs <;> simp [AUDIENCE_LABELS]

/-! ## Claim C4 -/

/-- Claim C4 counterexample: a request-supplied audience that is the
empty string does not override the inferred audience; the handler falls
back to the inferred one because the Python or-expression treats the
empty string as absent. -/
theorem c4_counterexample :
    (infer_audience_tone "boss").1 = "Boss / Manager" ∧
    resolve_audience (some "") (infer_audience_tone "boss").1 =
      "Boss / Manager" ∧
    resolve_audience (some "") (infer_audience_tone "boss").1 ≠ "" := by
  refine ⟨by decide, by decide, by decide⟩

/-- Claim C4 (amended): a request-supplied tone that lowercases to one
of the three valid tones overrides the inferred tone (in lowercase
form), any other supplied tone is discarded for the inferred tone, a
request-supplied non-empty audience overrides the inferred audience
while a supplied empty-string audience is treated as absent, and the
resolved tone is what the assembled persona fragment list carries. -/
theorem c4_resolution (req : GenerateReq) :
    (∀ tt, req.tone = some tt → VALID_TONES.contains (pyLower tt) = true →
      resolve_tone req.tone (infer_audience_tone req.scenario).2 = pyLower tt) ∧
    (∀ tt, req.tone = some tt → VALID_TONES.contains (pyLower tt) = false →
      resolve_tone req.tone (infer_audience_tone req.scenario).2 =
        (infer_audience_tone req.scenario).2) ∧
    (∀ aa, req.audience = some aa → aa ≠ "" →
      resolve_audience req.audience (infer_audience_tone req.scenario).1 = aa) ∧
    (req.audience = some "" →
      resolve_audience req.audience (infer_audience_tone req.scenario).1 =
        (infer_audience_tone req.scenario).1) ∧
    ("Tone: " ++ resolve_tone req.tone (infer_audience_tone req.scenario).2) ∈
      persona_bits req
        (resolve_audience req.audience (infer_audience_tone req.scenario).1)
        (resolve_tone req.tone (infer_audience_tone req.scenario).2) := by
  have hmem := infer_tone_mem req.scenario
  refine ⟨?_, ?_, ?_, ?_, ?_⟩
  · intro tt ht hv
    rw [ht]
    simp only [resolve_tone, pyOrStr]
    by_cases he : tt = ""
    · subst he
      exact absurd hv (by decide)
    · rw [if_neg he, if_pos hv]
  · intro tt ht hv
    rw [ht]
    simp only [resolve_tone, pyOrStr]
    by_cases he : tt = ""
    · rw [if_pos he, tone_lower_fix _ hmem,
        if_pos (List.elem_eq_true_of_mem hmem)]
    · rw [if_neg he, hv]
      simp
  · intro aa ha hne
    rw [ha]
    simp only [resolve_audience, pyOrStr]
    rw [if_neg hne]
  · intro ha
    rw [ha]
    simp only [resolve_audience, pyOrStr]
    simp
  · simp [persona_bits]

/-- Witness for C4: a valid uppercase supplied tone overrides in
lowercase form, and a non-empty supplied audience overrides. -/
theorem c4_witness :
    resolve_tone (some "FORMAL") (infer_audience_tone "boss").2 = "formal" ∧
    resolve_audience (some "Team") (infer_audience_tone "boss").1 = "Team" :=
  ⟨((c4_resolution
      { name := "n", age := 25, scenario := "boss", tone := some "FORMAL",
        audience := some "Team" }).1 "FORMAL" rfl (by decide)).trans (by decide),
   (c4_resolution
      { name := "n", age := 25, scenario := "boss", tone := some "FORMAL",
        audience := some "Team" }).2.2.1 "Team" rfl (by decide)⟩

/-! ## Claim C2 -/

/-- The filter loop never returns more texts than it was given. -/
theorem filterOptionsLoop_length (opts : List Json) (out : List String)
    (h : filterOptionsLoop opts = .ok out) : out.length ≤ opts.length := by
  induction opts generalizing out with
  | nil =>
    simp only [filterOptionsLoop] at h
    cases h
    simp
  | cons o rest ih =>
    simp only [filterOptionsLoop] at h
    split at h
    · cases h
    · split at h
      · exact Nat.le_succ_of_le (ih _ h)
      · split at h
        · exact Nat.le_succ_of_le (ih _ h)
        · split at h
          · exact Nat.le_succ_of_le (ih _ h)
          · split at h
            · cases h
              simp only [List.length_cons]
              exact Nat.succ_le_succ (ih _ (by assumption))
            · cases h

/-- Claim C2: whenever sanitization returns (no exception was raised by
a malformed entry), the result has between 1 and limit options, and if
no entry survived the filters the result is exactly the fallback. -/
theorem c2_bounds (options : List Json) (limit : Nat) (out : List String)
    (h1 : 1 ≤ limit) (h5 : limit ≤ 5)
    (hok : filter_and_normalize options limit = .ok out) :
    1 ≤ out.length ∧ out.length ≤ limit ∧
    (filterOptionsLoop (options.take limit) = .ok [] →
      out = [FALLBACK_TEXT]) := by
  unfold filter_and_normalize at hok
  cases hloop : filterOptionsLoop (options.take limit) with
  | error e => rw [hloop] at hok; cases hok
  | ok kept =>
    rw [hloop] at hok
    cases hok
    have hlen : kept.length ≤ limit := by
      have := filterOptionsLoop_length _ _ hloop
      have htake : (options.take limit).length ≤ limit := by
        simpa using List.length_take_le limit options
      omega
    by_cases hk : kept.isEmpty
    · rw [if_pos hk]
      refine ⟨by simp, by simpa using h1, fun _ => rfl⟩
    · rw [if_neg hk]
      refine ⟨?_, hlen, ?_⟩
      · cases kept with
        | nil => simp at hk
        | cons a b => simp
      · intro hnil
        cases hnil
        simp at hk

/-- Witness for C2 at the empty options list with limit 1: the fallback
is produced and the bounds hold. -/
theorem c2_witness :
    1 ≤ [FALLBACK_TEXT].length ∧ [FALLBACK_TEXT].length ≤ 1 ∧
    (filterOptionsLoop (([] : List Json).take 1) = .ok [] →
      [FALLBACK_TEXT] = [FALLBACK_TEXT]) :=
  c2_bounds [] 1 [FALLBACK_TEXT] (by decide) (by decide) rfl

/-! ## Claim C5 -/

/-- A well-formed entry text is exactly what the get-or-default of the
source returns. -/
theorem entryTextStr_get (o : Json) (t : String)
    (h : entryTextStr o = some t) : get_text_or_empty o = .ok t := by
  unfold entryTextStr at h
  split at h
  · rename_i fields
    split at h
    · rename_i s hl
      cases h
      simp [get_text_or_empty, hl]
    · cases h
  · cases h

/-- all is preserved by take. -/
theorem all_validEntry_take (l : List Json) (n : Nat)
    (h : l.all validEntry = true) : (l.take n).all validEntry = true := by
  rw [List.all_eq_true] at h ⊢
  intro x hx
  exact h x (List.mem_of_mem_take hx)

/-- On a list of well-formed valid entries the filter loop keeps every
entry, in order, as its stripped text. -/
theorem filterOptionsLoop_all_valid (l : List Json)
    (h : l.all validEntry = true) :
    filterOptionsLoop l =
      .ok (l.map (fun o => pyStrip ((entryTextStr o).getD ""))) := by
  induction l with
  | nil => rfl
  | cons o rest ih =>
    rw [List.all_cons, Bool.and_eq_true] at h
    obtain ⟨ho, hrest⟩ := h
    unfold validEntry at ho
    cases he : entryTextStr o with
    | none => rw [he] at ho; cases ho
    | some t =>
      rw [he] at ho
      simp only [Bool.and_eq_true, Bool.not_eq_true', decide_eq_true_eq] at ho
      obtain ⟨⟨hne, hb⟩, hw⟩ := ho
      have hne' : ¬(pyStrip t = "") := by
        intro hcon
        rw [hcon] at hne
        cases hne
      simp only [filterOptionsLoop, entryTextStr_get o t he]
      rw [if_neg hne', if_neg (by simp [hb]), if_neg (by omega), ih hrest]
      simp [he]

/-- Claim C5 (amended): on an options list of N well-formed valid
entries and a limit M between 1 and N, sanitization returns exactly the
first M entries, in order, each as the whitespace-stripped form of its
text field. -/
theorem c5_valid_prefix (options : List Json) (limit : Nat)
    (h1 : 1 ≤ limit) (hlen : limit ≤ options.length)
    (hval : options.all validEntry = true) :
    filter_and_normalize options limit =
      .ok ((options.take limit).map
        (fun o => pyStrip ((entryTextStr o).getD ""))) := by
  unfold filter_and_normalize
  rw [filterOptionsLoop_all_valid _ (all_validEntry_take options limit hval)]
  have hlen2 : (options.take limit).length = limit := by
    rw [List.length_take]
    omega
  cases hc : options.take limit with
  | nil =>
    rw [hc] at hlen2
    simp at hlen2
    omega
  | cons a b => simp [hc]

/-- Claim C5 counterexample: a single well-formed valid entry whose text
carries surrounding whitespace is returned stripped, so the output text
differs from the input text. -/
theorem c5_counterexample :
    validEntry (Json.obj [("text", Json.str " hi ")]) = true ∧
    filter_and_normalize [Json.obj [("text", Json.str " hi ")]] 1 =
      .ok ["hi"] ∧
    "hi" ≠ " hi " := by
  refine ⟨rfl, rfl, by decide⟩

/-- Witness for C5 on two already-stripped valid entries with limit 1. -/
theorem c5_witness :
    filter_and_normalize
      [Json.obj [("text", Json.str "all good")],
       Json.obj [("text", Json.str "second one")]] 1 =
      .ok (([Json.obj [("text", Json.str "all good")],
             Json.obj [("text", Json.str "second one")]].take 1).map
        (fun o => pyStrip ((entryTextStr o).getD ""))) :=
  c5_valid_prefix _ 1 (by decide) (by decide) (by rfl)

/-! ## Claim C9 -/

/-- Every text the filter loop keeps is nonempty, already stripped, at
most fifty words, and clean of banned phrases. -/
theorem filterOptionsLoop_sound (l : List Json) (out : List String)
    (h : filterOptionsLoop l = .ok out) :
    ∀ t ∈ out,
      t ≠ "" ∧ pyStrip t = t ∧ wordCount t ≤ 50 ∧ hitsBanned t = false := by
  induction l generalizing out with
  | nil =>
    simp only [filterOptionsLoop] at h
    cases h
    intro t ht
    cases ht
  | cons o rest ih =>
    simp only [filterOptionsLoop] at h
    cases hg : get_text_or_empty o with
    | error e => simp only [hg] at h; cases h
    | ok raw =>
      simp only [hg] at h
      by_cases hc1 : pyStrip raw = ""
      · rw [if_pos hc1] at h
        exact ih _ h
      · rw [if_neg hc1] at h
        by_cases hc2 : hitsBanned (pyStrip raw) = true
        · rw [if_pos hc2] at h
          exact ih _ h
        · rw [if_neg hc2] at h
          by_cases hc3 : wordCount (pyStrip raw) > 50
          · rw [if_pos hc3] at h
            exact ih _ h
          · rw [if_neg hc3] at h
            cases hr : filterOptionsLoop rest with
            | error e => simp only [hr] at h; cases h
            | ok outRest =>
              simp only [hr] at h
              cases h
              intro t ht
              rcases List.mem_cons.mp ht with rfl | ht
              · exact ⟨hc1, pyStrip_idem raw, by omega, by simpa using hc2⟩
              · exact ih outRest hr t ht

/-- Claim C9: every option text filter_and_normalize returns, the
fallback included, is nonempty, equal to its own strip, at most fifty
words, and free of every banned phrase case-insensitively. -/
theorem c9_output_invariant (options : List Json) (limit : Nat)
    (out : List String) (hok : filter_and_normalize options limit = .ok out) :
    ∀ t ∈ out,
      t ≠ "" ∧ pyStrip t = t ∧ wordCount t ≤ 50 ∧ hitsBanned t = false := by
  unfold filter_and_normalize at hok
  cases hloop : filterOptionsLoop (options.take limit) with
  | error e => rw [hloop] at hok; cases hok
  | ok kept =>
    rw [hloop] at hok
    cases hok
    intro t ht
    by_cases hk : kept.isEmpty
    · rw [if_pos hk] at ht
      simp at ht
      subst ht
      refine ⟨by decide, by decide, by decide, by decide⟩
    · rw [if_neg hk] at ht
      exact filterOptionsLoop_sound _ _ hloop t ht

/-- Witness for C9 at the empty options list: the fallback option
satisfies the invariant. -/
theorem c9_witness :
    FALLBACK_TEXT ≠ "" ∧ pyStrip FALLBACK_TEXT = FALLBACK_TEXT ∧
    wordCount FALLBACK_TEXT ≤ 50 ∧ hitsBanned FALLBACK_TEXT = false :=
  c9_output_invariant [] 1 [FALLBACK_TEXT] rfl FALLBACK_TEXT (by simp)

/-! ## Claim C8 -/

/-- Claim C8: every failure inside the generation-call-plus-sanitization
sequence is reported as a single 500 response carrying exactly the
failure message, and a successful response only arises when every stage
succeeded, its options being exactly the sanitized list. -/
theorem c8_error_propagation (comp : Except String (Option String))
    (variants : Nat) :
    (∀ m, comp = .error m →
      generate_handler comp variants = .error (500, m)) ∧
    (∀ co m, comp = .ok co → safe_json_parse (content_of co) = .error m →
      generate_handler comp variants = .error (500, m)) ∧
    (∀ co d m, comp = .ok co → safe_json_parse (content_of co) = .ok d →
      getOptionsList d = .error m →
      generate_handler comp variants = .error (500, m)) ∧
    (∀ co d opts m, comp = .ok co → safe_json_parse (content_of co) = .ok d →
      getOptionsList d = .ok opts →
      filter_and_normalize opts variants = .error m →
      generate_handler comp variants = .error (500, m)) ∧
    (∀ out, generate_handler comp variants = .ok out →
      ∃ co d opts, comp = .ok co ∧ safe_json_parse (content_of co) = .ok d ∧
        getOptionsList d = .ok opts ∧
        filter_and_normalize opts variants = .ok out) := by
  refine ⟨?_, ?_, ?_, ?_, ?_⟩
  · intro m hm
    simp [generate_handler, run_pipeline, hm]
  · intro co m hco hparse
    simp [generate_handler, run_pipeline, hco, hparse]
  · intro co d m hco hparse hg
    simp [generate_handler, run_pipeline, hco, hparse, hg]
  · intro co d opts m hco hparse hg hf
    simp [generate_handler, run_pipeline, hco, hparse, hg, hf]
  · intro out hout
    unfold generate_handler run_pipeline at hout
    cases hcomp : comp with
    | error e => simp only [hcomp] at hout; cases hout
    | ok co =>
      simp only [hcomp] at hout
      cases hparse : safe_json_parse (content_of co) with
      | error e => simp only [hparse] at hout; cases hout
      | ok d =>
        simp only [hparse] at hout
        cases hg : getOptionsList d with
        | error e => simp only [hg] at hout; cases hout
        | ok opts =>
          simp only [hg] at hout
          cases hf : filter_and_normalize opts variants with
          | error e => simp only [hf] at hout; cases hout
          | ok l =>
            simp only [hf] at hout
            cases hout
            exact ⟨co, d, opts, rfl, hparse, hg, hf⟩

/-- Witness for C8: a failed remote call is reported verbatim with
status 500. -/
theorem c8_witness : generate_handler (.error "boom") 1 = .error (500, "boom") :=
  (c8_error_propagation (.error "boom") 1).1 "boom" rfl

/-! ## List scanning helpers for C7 -/

/-- takeWhile and dropWhile walk through a fully satisfying prefix. -/
theorem takeWhile_append_all (p : Char → Bool) (a b : List Char)
    (ha : ∀ c ∈ a, p c = true) :
    (a ++ b).takeWhile p = a ++ b.takeWhile p ∧
    (a ++ b).dropWhile p = b.dropWhile p := by
  induction a with
  | nil => simp
  | cons c t ih =>
    have hc : p c = true := ha c (by simp)
    have ih2 := ih (fun d hd => ha d (by simp [hd]))
    simp [List.takeWhile_cons, List.dropWhile_cons, hc, ih2.1, ih2.2]

/-- takeWhile and dropWhile stop at a failing head. -/
theorem takeWhile_head_stop (p : Char → Bool) (b : List Char)
    (hb : ∀ c, b.head? = some c → p c = false) :
    b.takeWhile p = [] ∧ b.dropWhile p = b := by
  cases b with
  | nil => simp
  | cons c t =>
    have := hb c rfl
    simp [List.takeWhile_cons, List.dropWhile_cons, this]

/-- Hexadecimal digits sit at or above the space code point. -/
theorem isHexDigitC_ge32 (c : Char) (h : isHexDigitC c = true) :
    32 ≤ c.toNat := by
  unfold isHexDigitC isDigitC at h
  simp only [Bool.or_eq_true, Bool.and_eq_true, decide_eq_true_eq] at h
  omega

/-- Decimal digits sit at or above the space code point. -/
theorem isDigitC_ge32 (c : Char) (h : isDigitC c = true) : 32 ≤ c.toNat := by
  unfold isDigitC at h
  simp only [Bool.and_eq_true, decide_eq_true_eq] at h
  omega

/-! ## String-literal scanner lemmas for C7 -/


/-- A successful string-body scan consumes exactly the body plus the
closing quote, and the body holds no character below the space code
point (in particular no newline). -/
theorem parseStrChars_split (l cs r : List Char)
    (h : parseStrChars l = some (cs, r)) :
    l = cs ++ '\"' :: r ∧ ∀ c ∈ cs, 32 ≤ c.toNat := by
  induction l using parseStrChars.induct generalizing cs r with
  | case1 =>
    rw [parseStrChars.eq_1] at h
    cases h
  | case2 rest =>
    rw [parseStrChars.eq_2] at h
    cases h
    exact ⟨rfl, by simp⟩
  | case3 a b c d rest3 hhex cs0 r0 hrec ih =>
    rw [parseStrChars.eq_3, if_pos hhex, hrec] at h
    cases h
    obtain ⟨heq, hchars⟩ := ih cs0 r0 hrec
    simp only [Bool.and_eq_true] at hhex
    constructor
    · rw [heq]
      simp
    · intro x hx
      simp only [List.mem_cons] at hx
      rcases hx with rfl | rfl | rfl | rfl | rfl | rfl | hx
      · decide
      · decide
      · exact isHexDigitC_ge32 _ hhex.1.1.1
      · exact isHexDigitC_ge32 _ hhex.1.1.2
      · exact isHexDigitC_ge32 _ hhex.1.2
      · exact isHexDigitC_ge32 _ hhex.2
      · exact hchars x hx
  | case4 a b c d rest3 hhex hrec ih =>
    rw [parseStrChars.eq_3, if_pos hhex, hrec] at h
    cases h
  | case5 a b c d rest3 hhex =>
    rw [parseStrChars.eq_3, if_neg hhex] at h
    cases h
  | case6 rest2 hshape =>
    rw [parseStrChars.eq_4 _ _ hshape, if_pos rfl] at h
    cases h
  | case7 e rest2 hshape hne hesc cs0 r0 hrec ih =>
    rw [parseStrChars.eq_4 _ _ hshape, if_neg hne, if_pos hesc, hrec] at h
    cases h
    obtain ⟨heq, hchars⟩ := ih cs0 r0 hrec
    constructor
    · rw [heq]
      simp
    · intro x hx
      simp only [List.mem_cons] at hx
      rcases hx with rfl | rfl | hx
      · decide
      · simp only [Bool.or_eq_true, decide_eq_true_eq] at hesc
        rcases hesc with ⟨⟨⟨⟨⟨⟨h1 | h1⟩ | h1⟩ | h1⟩ | h1⟩ | h1⟩ | h1⟩ | h1 <;>
          subst h1 <;> decide
      · exact hchars x hx
  | case8 e rest2 hshape hne hesc hrec ih =>
    rw [parseStrChars.eq_4 _ _ hshape, if_neg hne, if_pos hesc, hrec] at h
    cases h
  | case9 e rest2 hshape hne hesc =>
    rw [parseStrChars.eq_4 _ _ hshape, if_neg hne, if_neg hesc] at h
    cases h
  | case10 =>
    rw [parseStrChars.eq_5] at h
    cases h
  | case11 c0 rest hq hu6 hu2 hnil hlt =>
    rw [parseStrChars.eq_6 _ _ hq hu6 hu2 hnil, if_pos hlt] at h
    cases h
  | case12 c0 rest hq hu6 hu2 hnil hlt cs0 r0 hrec ih =>
    rw [parseStrChars.eq_6 _ _ hq hu6 hu2 hnil, if_neg hlt, hrec] at h
    cases h
    obtain ⟨heq, hchars⟩ := ih cs0 r0 hrec
    constructor
    · rw [heq]
      simp
    · intro x hx
      simp only [List.mem_cons] at hx
      rcases hx with rfl | hx
      · omega
      · exact hchars x hx
  | case13 c0 rest hq hu6 hu2 hnil hlt hrec ih =>
    rw [parseStrChars.eq_6 _ _ hq hu6 hu2 hnil, if_neg hlt, hrec] at h
    cases h

/-- A consumed string body scans the same way in front of any new tail. -/
theorem parseStrChars_retarget (l cs r : List Char)
    (h : parseStrChars l = some (cs, r)) (r2 : List Char) :
    parseStrChars (cs ++ '\"' :: r2) = some (cs, r2) := by
  induction l using parseStrChars.induct generalizing cs r with
  | case1 =>
    rw [parseStrChars.eq_1] at h
    cases h
  | case2 rest =>
    rw [parseStrChars.eq_2] at h
    cases h
    exact parseStrChars.eq_2 r2
  | case3 a b c d rest3 hhex cs0 r0 hrec ih =>
    rw [parseStrChars.eq_3, if_pos hhex, hrec] at h
    cases h
    show parseStrChars ('\\' :: 'u' :: a :: b :: c :: d :: (cs0 ++ '\"' :: r2)) =
      some ('\\' :: 'u' :: a :: b :: c :: d :: cs0, r2)
    rw [parseStrChars.eq_3, if_pos hhex, ih cs0 r0 hrec]
  | case4 a b c d rest3 hhex hrec ih =>
    rw [parseStrChars.eq_3, if_pos hhex, hrec] at h
    cases h
  | case5 a b c d rest3 hhex =>
    rw [parseStrChars.eq_3, if_neg hhex] at h
    cases h
  | case6 rest2 hshape =>
    rw [parseStrChars.eq_4 _ _ hshape, if_pos rfl] at h
    cases h
  | case7 e rest2 hshape hne hesc cs0 r0 hrec ih =>
    rw [parseStrChars.eq_4 _ _ hshape, if_neg hne, if_pos hesc, hrec] at h
    cases h
    show parseStrChars ('\\' :: e :: (cs0 ++ '\"' :: r2)) =
      some ('\\' :: e :: cs0, r2)
    rw [parseStrChars.eq_4 _ _ (fun _ _ _ _ _ he _ => hne he), if_neg hne,
      if_pos hesc, ih cs0 r0 hrec]
  | case8 e rest2 hshape hne hesc hrec ih =>
    rw [parseStrChars.eq_4 _ _ hshape, if_neg hne, if_pos hesc, hrec] at h
    cases h
  | case9 e rest2 hshape hne hesc =>
    rw [parseStrChars.eq_4 _ _ hshape, if_neg hne, if_neg hesc] at h
    cases h
  | case10 =>
    rw [parseStrChars.eq_5] at h
    cases h
  | case11 c0 rest hq hu6 hu2 hnil hlt =>
    rw [parseStrChars.eq_6 _ _ hq hu6 hu2 hnil, if_pos hlt] at h
    cases h
  | case12 c0 rest hq hu6 hu2 hnil hlt cs0 r0 hrec ih =>
    rw [parseStrChars.eq_6 _ _ hq hu6 hu2 hnil, if_neg hlt, hrec] at h
    cases h
    have hcb : c0 = '\\' → False := by
      intro hc
      cases rest with
      | nil => exact hnil hc rfl
      | cons e rr => exact hu2 e rr hc rfl
    show parseStrChars (c0 :: (cs0 ++ '\"' :: r2)) = some (c0 :: cs0, r2)
    rw [parseStrChars.eq_6 _ _ hq (fun _ _ _ _ _ hc _ => hcb hc)
      (fun _ _ hc _ => hcb hc) (fun hc _ => hcb hc), if_neg hlt,
      ih cs0 r0 hrec]
  | case13 c0 rest hq hu6 hu2 hnil hlt hrec ih =>
    rw [parseStrChars.eq_6 _ _ hq hu6 hu2 hnil, if_neg hlt, hrec] at h
    cases h

/-! ## Number lexeme lemmas for C7 -/

/-- Characters with different code points differ. -/
theorem char_ne_of_toNat {c d : Char} (h : c.toNat ≠ d.toNat) : c ≠ d :=
  fun he => h (congrArg Char.toNat he)

/-- Characters at or above code point 33 are not Python whitespace. -/
theorem isPySpace_false_of_ge33 (c : Char) (h : 33 ≤ c.toNat) :
    isPySpace c = false := by
  unfold isPySpace
  rw [decide_eq_false (char_ne_of_toNat
      (show c.toNat ≠ (' ').toNat by rw [show (' ').toNat = 32 from rfl]; omega)),
    decide_eq_false (char_ne_of_toNat
      (show c.toNat ≠ ('\t').toNat by rw [show ('\t').toNat = 9 from rfl]; omega)),
    decide_eq_false (char_ne_of_toNat
      (show c.toNat ≠ ('\n').toNat by rw [show ('\n').toNat = 10 from rfl]; omega)),
    decide_eq_false (char_ne_of_toNat
      (show c.toNat ≠ ('\r').toNat by rw [show ('\r').toNat = 13 from rfl]; omega)),
    decide_eq_false (char_ne_of_toNat
      (show c.toNat ≠ ('\x0b').toNat by rw [show ('\x0b').toNat = 11 from rfl]; omega)),
    decide_eq_false (char_ne_of_toNat
      (show c.toNat ≠ ('\x0c').toNat by rw [show ('\x0c').toNat = 12 from rfl]; omega))]
  rfl

/-- Characters at or above code point 33 are not JSON whitespace. -/
theorem isJsonWs_false_of_ge33 (c : Char) (h : 33 ≤ c.toNat) :
    isJsonWs c = false := by
  unfold isJsonWs
  rw [decide_eq_false (char_ne_of_toNat
      (show c.toNat ≠ (' ').toNat by rw [show (' ').toNat = 32 from rfl]; omega)),
    decide_eq_false (char_ne_of_toNat
      (show c.toNat ≠ ('\t').toNat by rw [show ('\t').toNat = 9 from rfl]; omega)),
    decide_eq_false (char_ne_of_toNat
      (show c.toNat ≠ ('\n').toNat by rw [show ('\n').toNat = 10 from rfl]; omega)),
    decide_eq_false (char_ne_of_toNat
      (show c.toNat ≠ ('\r').toNat by rw [show ('\r').toNat = 13 from rfl]; omega))]
  rfl

/-- A number character has code point between 43 and 101 and is not the
backtick. -/
theorem isNumChar_range (c : Char) (h : isNumChar c = true) :
    43 ≤ c.toNat ∧ c.toNat ≤ 101 ∧ c.toNat ≠ 96 := by
  unfold isNumChar isDigitC at h
  simp only [Bool.or_eq_true, Bool.and_eq_true, decide_eq_true_eq] at h
  rcases h with ⟨⟨⟨⟨⟨h1, h2⟩ | rfl⟩ | rfl⟩ | rfl⟩ | rfl⟩ | rfl
  · omega
  all_goals decide

/-- Digits are number characters. -/
theorem isNumChar_of_digit (c : Char) (h : isDigitC c = true) :
    isNumChar c = true := by
  unfold isNumChar
  rw [h]
  rfl

/-- A successful integer-part scan consumes a nonempty digit block. -/
theorem parseIntDigits_split (l ip r : List Char)
    (h : parseIntDigits l = some (ip, r)) :
    l = ip ++ r ∧ ip ≠ [] ∧ ∀ c ∈ ip, isDigitC c = true := by
  cases l with
  | nil => rw [parseIntDigits.eq_3] at h; cases h
  | cons c r0 =>
    by_cases hc0 : c = '0'
    · subst hc0
      rw [parseIntDigits.eq_1] at h
      cases h
      refine ⟨rfl, by simp, ?_⟩
      intro x hx
      simp only [List.mem_singleton] at hx
      subst hx
      decide
    · rw [parseIntDigits.eq_2 c r0 (fun hq => hc0 hq)] at h
      by_cases hd : isDigitC c = true
      · rw [if_pos hd] at h
        cases h
        refine ⟨by simp [List.takeWhile_append_dropWhile], by simp, ?_⟩
        intro x hx
        rcases List.mem_cons.mp hx with rfl | hx
        · exact hd
        · exact List.mem_takeWhile_imp hx
      · rw [if_neg hd] at h
        cases h

/-- A consumed integer part scans the same way in front of any new tail
whose head is not a digit. -/
theorem parseIntDigits_retarget (l ip r : List Char)
    (h : parseIntDigits l = some (ip, r)) (r2 : List Char)
    (hstop : ∀ c, r2.head? = some c → isDigitC c = false) :
    parseIntDigits (ip ++ r2) = some (ip, r2) := by
  cases l with
  | nil => rw [parseIntDigits.eq_3] at h; cases h
  | cons c r0 =>
    by_cases hc0 : c = '0'
    · subst hc0
      rw [parseIntDigits.eq_1] at h
      cases h
      exact parseIntDigits.eq_1 r2
    · rw [parseIntDigits.eq_2 c r0 (fun hq => hc0 hq)] at h
      by_cases hd : isDigitC c = true
      · rw [if_pos hd] at h
        cases h
        have hall : ∀ x ∈ r0.takeWhile isDigitC, isDigitC x = true :=
          fun x hx => List.mem_takeWhile_imp hx
        have h1 := takeWhile_append_all isDigitC (r0.takeWhile isDigitC) r2 hall
        have h2 := takeWhile_head_stop isDigitC r2 hstop
        show parseIntDigits (c :: (r0.takeWhile isDigitC ++ r2)) = _
        rw [parseIntDigits.eq_2 c _ (fun hq => hc0 hq), if_pos hd, h1.1, h1.2,
          h2.1, h2.2]
        simp
      · rw [if_neg hd] at h
        cases h

/-- The fractional part consumes nothing when the input does not start
with a dot. -/
theorem parseFracPart_no_dot (l : List Char)
    (h : ∀ c, l.head? = some c → c ≠ '.') : parseFracPart l = ([], l) := by
  cases l with
  | nil => rfl
  | cons c t =>
    exact parseFracPart.eq_2 (c :: t)
      (fun r heq => h c rfl (List.cons_eq_cons.mp heq).1)

/-- The fractional part consumes a dot and a nonempty digit block that
stops exactly where digits stop. -/
theorem parseFracPart_run (ds rest : List Char) (hds : ds ≠ [])
    (hall : ∀ c ∈ ds, isDigitC c = true)
    (hstop : ∀ c, rest.head? = some c → isDigitC c = false) :
    parseFracPart ('.' :: (ds ++ rest)) = ('.' :: ds, rest) := by
  have h1 := takeWhile_append_all isDigitC ds rest hall
  have h2 := takeWhile_head_stop isDigitC rest hstop
  rw [parseFracPart.eq_1, h1.1, h2.1, List.append_nil, h1.2, h2.2,
    if_neg (by simp [List.isEmpty_iff, hds])]

/-- Structure of the fractional part of a number lexeme. -/
theorem parseFracPart_split (l fp rest : List Char)
    (h : parseFracPart l = (fp, rest)) :
    l = fp ++ rest ∧
    (fp = [] ∨ ∃ ds, fp = '.' :: ds ∧ ds ≠ [] ∧
      ∀ c ∈ ds, isDigitC c = true) := by
  cases l with
  | nil =>
    cases h
    exact ⟨rfl, Or.inl rfl⟩
  | cons c t =>
    by_cases hc : c = '.'
    · subst hc
      rw [parseFracPart.eq_1] at h
      by_cases hds : (t.takeWhile isDigitC).isEmpty = true
      · rw [if_pos hds] at h
        cases h
        exact ⟨rfl, Or.inl rfl⟩
      · rw [if_neg hds] at h
        cases h
        refine ⟨by simp [List.takeWhile_append_dropWhile],
          Or.inr ⟨t.takeWhile isDigitC, rfl, ?_, ?_⟩⟩
        · simpa [List.isEmpty_iff] using hds
        · intro x hx
          exact List.mem_takeWhile_imp hx
    · rw [parseFracPart.eq_2 (c :: t)
        (fun r heq => hc (List.cons_eq_cons.mp heq).1)] at h
      cases h
      exact ⟨rfl, Or.inl rfl⟩

/-- The exponent part consumes nothing when the input does not start
with an exponent letter. -/
theorem parseExpPart_no_e (l : List Char)
    (h : ∀ c, l.head? = some c → c ≠ 'e' ∧ c ≠ 'E') :
    parseExpPart l = ([], l) := by
  cases l with
  | nil => rfl
  | cons c t =>
    have hc := h c rfl
    have he : (decide (c = 'e') || decide (c = 'E')) = false := by
      rw [decide_eq_false hc.1, decide_eq_false hc.2]
      rfl
    cases t with
    | nil =>
      rw [parseExpPart.eq_2, if_neg (by rw [he]; exact Bool.false_ne_true)]
    | cons s t2 =>
      rw [parseExpPart.eq_1, if_neg (by rw [he]; exact Bool.false_ne_true)]

/-- The exponent part consumes an exponent letter and a nonempty digit
block. -/
theorem parseExpPart_run_nosign (e : Char) (ds rest : List Char)
    (he : (decide (e = 'e') || decide (e = 'E')) = true) (hds : ds ≠ [])
    (hall : ∀ c ∈ ds, isDigitC c = true)
    (hstop : ∀ c, rest.head? = some c → isDigitC c = false) :
    parseExpPart (e :: (ds ++ rest)) = (e :: ds, rest) := by
  have h1 := takeWhile_append_all isDigitC ds rest hall
  have h2 := takeWhile_head_stop isDigitC rest hstop
  cases ds with
  | nil => exact absurd rfl hds
  | cons d ds2 =>
    have hdnotsign : (decide (d = '+') || decide (d = '-')) = false := by
      have hd := hall d (by simp)
      unfold isDigitC at hd
      simp only [Bool.and_eq_true, decide_eq_true_eq] at hd
      rw [decide_eq_false (char_ne_of_toNat
          (show d.toNat ≠ ('+').toNat by
            rw [show ('+').toNat = 43 from rfl]; omega)),
        decide_eq_false (char_ne_of_toNat
          (show d.toNat ≠ ('-').toNat by
            rw [show ('-').toNat = 45 from rfl]; omega))]
      rfl
    show parseExpPart (e :: d :: (ds2 ++ rest)) = (e :: d :: ds2, rest)
    rw [parseExpPart.eq_1, if_pos he,
      if_neg (by rw [hdnotsign]; exact Bool.false_ne_true)]
    have h1' := takeWhile_append_all isDigitC (d :: ds2) rest hall
    rw [show d :: (ds2 ++ rest) = (d :: ds2) ++ rest from rfl, h1'.1, h2.1,
      List.append_nil, h1'.2, h2.2, if_neg (by simp [List.isEmpty_iff])]

/-- The exponent part consumes an exponent letter, a sign, and a
nonempty digit block. -/
theorem parseExpPart_run_sign (e s : Char) (ds rest : List Char)
    (he : (decide (e = 'e') || decide (e = 'E')) = true)
    (hs : (decide (s = '+') || decide (s = '-')) = true) (hds : ds ≠ [])
    (hall : ∀ c ∈ ds, isDigitC c = true)
    (hstop : ∀ c, rest.head? = some c → isDigitC c = false) :
    parseExpPart (e :: s :: (ds ++ rest)) = (e :: s :: ds, rest) := by
  have h1 := takeWhile_append_all isDigitC ds rest hall
  have h2 := takeWhile_head_stop isDigitC rest hstop
  rw [parseExpPart.eq_1, if_pos he, if_pos hs, h1.1, h2.1, List.append_nil,
    h1.2, h2.2, if_neg (by simp [List.isEmpty_iff, hds])]

/-- Structure of the exponent part of a number lexeme. -/
theorem parseExpPart_split (l ep rest : List Char)
    (h : parseExpPart l = (ep, rest)) :
    l = ep ++ rest ∧
    (ep = [] ∨ ∃ e sg ds, ep = e :: (sg ++ ds) ∧
      (decide (e = 'e') || decide (e = 'E')) = true ∧
      (sg = [] ∨ (decide (sg = ['+']) || decide (sg = ['-'])) = true) ∧
      ds ≠ [] ∧ ∀ c ∈ ds, isDigitC c = true) := by
  cases l with
  | nil =>
    cases h
    exact ⟨rfl, Or.inl rfl⟩
  | cons c t =>
    by_cases he : (decide (c = 'e') || decide (c = 'E')) = true
    · cases t with
      | nil =>
        rw [parseExpPart.eq_2, if_pos he] at h
        cases h
        exact ⟨rfl, Or.inl rfl⟩
      | cons s t2 =>
        rw [parseExpPart.eq_1, if_pos he] at h
        by_cases hs : (decide (s = '+') || decide (s = '-')) = true
        · rw [if_pos hs] at h
          by_cases hds : (t2.takeWhile isDigitC).isEmpty = true
          · rw [if_pos hds] at h
            cases h
            exact ⟨rfl, Or.inl rfl⟩
          · rw [if_neg hds] at h
            cases h
            refine ⟨by simp [List.takeWhile_append_dropWhile],
              Or.inr ⟨c, [s], t2.takeWhile isDigitC, by simp, he, ?_, ?_, ?_⟩⟩
            · right
              simp only [Bool.or_eq_true, decide_eq_true_eq] at hs ⊢
              rcases hs with rfl | rfl
              · left; rfl
              · right; rfl
            · simpa [List.isEmpty_iff] using hds
            · intro x hx
              exact List.mem_takeWhile_imp hx
        · rw [if_neg hs] at h
          by_cases hds : ((s :: t2).takeWhile isDigitC).isEmpty = true
          · rw [if_pos hds] at h
            cases h
            exact ⟨rfl, Or.inl rfl⟩
          · rw [if_neg hds] at h
            cases h
            refine ⟨by simp [List.takeWhile_append_dropWhile],
              Or.inr ⟨c, [], (s :: t2).takeWhile isDigitC, by simp, he,
                Or.inl rfl, ?_, ?_⟩⟩
            · simpa [List.isEmpty_iff] using hds
            · intro x hx
              exact List.mem_takeWhile_imp hx
    · cases t with
      | nil =>
        rw [parseExpPart.eq_2, if_neg he] at h
        cases h
        exact ⟨rfl, Or.inl rfl⟩
      | cons s t2 =>
        rw [parseExpPart.eq_1, if_neg he] at h
        cases h
        exact ⟨rfl, Or.inl rfl⟩

/-- getLast? of an append with nonempty right part. -/
theorem getLast?_append_right (l1 l2 : List Char) (h : l2 ≠ []) :
    (l1 ++ l2).getLast? = l2.getLast? := by
  rw [List.getLast?_append]
  rw [List.getLast?_eq_getLast l2 h]
  rfl

/-- Facts shared by both sign cases of a number lexeme: the consumed
lexeme is nonempty, consists of number characters, starts with a digit
or a minus sign, and ends with a digit. -/
theorem parseNumLex_assemble (sgn ip fp1 ep1 : List Char)
    (hsgn : sgn = [] ∨ sgn = ['-'])
    (hipne : ip ≠ []) (hipdig : ∀ c ∈ ip, isDigitC c = true)
    (hfp : fp1 = [] ∨ ∃ ds, fp1 = '.' :: ds ∧ ds ≠ [] ∧
      ∀ c ∈ ds, isDigitC c = true)
    (hep : ep1 = [] ∨ ∃ e sg ds, ep1 = e :: (sg ++ ds) ∧
      (decide (e = 'e') || decide (e = 'E')) = true ∧
      (sg = [] ∨ (decide (sg = ['+']) || decide (sg = ['-'])) = true) ∧
      ds ≠ [] ∧ ∀ c ∈ ds, isDigitC c = true) :
    (sgn ++ ip ++ fp1 ++ ep1) ≠ [] ∧
    (∀ c ∈ sgn ++ ip ++ fp1 ++ ep1, isNumChar c = true) ∧
    (∀ c, (sgn ++ ip ++ fp1 ++ ep1).head? = some c →
      isDigitC c = true ∨ c = '-') ∧
    (∀ c, (sgn ++ ip ++ fp1 ++ ep1).getLast? = some c →
      isDigitC c = true) := by
  refine ⟨?_, ?_, ?_, ?_⟩
  · simp only [ne_eq, List.append_eq_nil]
    intro hcon
    exact hipne hcon.1.1.2
  · intro c hc
    simp only [List.mem_append] at hc
    rcases hc with ((hs | hi) | hf) | he
    · rcases hsgn with rfl | rfl
      · cases hs
      · simp only [List.mem_singleton] at hs
        subst hs
        decide
    · exact isNumChar_of_digit c (hipdig c hi)
    · rcases hfp with rfl | ⟨ds, rfl, hne, hds⟩
      · cases hf
      · rcases List.mem_cons.mp hf with rfl | hf
        · decide
        · exact isNumChar_of_digit c (hds c hf)
    · rcases hep with rfl | ⟨e, sg, ds, rfl, he2, hsg, hdsne, hds⟩
      · cases he
      · rcases List.mem_cons.mp he with rfl | he
        · simp only [Bool.or_eq_true, decide_eq_true_eq] at he2
          rcases he2 with rfl | rfl <;> decide
        · rcases List.mem_append.mp he with hsgm | hdsm
          · rcases hsg with rfl | hsg
            · cases hsgm
            · simp only [Bool.or_eq_true, decide_eq_true_eq] at hsg
              rcases hsg with rfl | rfl <;>
                simp only [List.mem_singleton] at hsgm <;> subst hsgm <;> decide
          · exact isNumChar_of_digit c (hds c hdsm)
  · intro c hc
    rcases hsgn with rfl | rfl
    · simp only [List.nil_append, List.append_assoc] at hc
      rw [List.head?_append_of_ne_nil _ hipne] at hc
      left
      exact hipdig c (List.mem_of_mem_head? hc)
    · simp only [List.cons_append, List.head?_cons, Option.some.injEq] at hc
      right
      exact hc.symm
  · intro c hc
    rcases hep with rfl | ⟨e, sg, ds, rfl, he2, hsg, hdsne, hds⟩
    · rw [List.append_nil] at hc
      rcases hfp with rfl | ⟨ds, rfl, hne, hds⟩
      · rw [List.append_nil, getLast?_append_right sgn ip hipne] at hc
        exact hipdig c (List.mem_of_mem_getLast? hc)
      · rw [getLast?_append_right _ _ (by simp)] at hc
        rw [show ('.' :: ds) = ['.'] ++ ds by simp,
          getLast?_append_right _ _ hne] at hc
        exact hds c (List.mem_of_mem_getLast? hc)
    · rw [getLast?_append_right _ _ (by simp)] at hc
      rw [show (e :: (sg ++ ds)) = (e :: sg) ++ ds by simp,
        getLast?_append_right _ _ hdsne] at hc
      exact hds c (List.mem_of_mem_getLast? hc)

/-- A successful number scan consumes exactly a nonempty lexeme of
number characters, starting with a digit or minus and ending with a
digit. -/
theorem parseNumLex_split (l lex r : List Char)
    (h : parseNumLex l = some (lex, r)) :
    l = lex ++ r ∧ lex ≠ [] ∧ (∀ c ∈ lex, isNumChar c = true) ∧
    (∀ c, lex.head? = some c → isDigitC c = true ∨ c = '-') ∧
    (∀ c, lex.getLast? = some c → isDigitC c = true) := by
  by_cases hneg : ∃ r0, l = '-' :: r0
  · obtain ⟨r0, rfl⟩ := hneg
    rw [parseNumLex.eq_1] at h
    dsimp only at h
    cases hip : parseIntDigits r0 with
    | none => rw [hip] at h; cases h
    | some pr =>
      obtain ⟨ip, l2⟩ := pr
      simp only [hip] at h
      cases h
      obtain ⟨hipeq, hipne, hipdig⟩ := parseIntDigits_split r0 ip l2 hip
      obtain ⟨hl2eq, hfp⟩ := parseFracPart_split l2 (parseFracPart l2).1
        (parseFracPart l2).2 rfl
      obtain ⟨hl3eq, hep⟩ := parseExpPart_split (parseFracPart l2).2
        (parseExpPart (parseFracPart l2).2).1
        (parseExpPart (parseFracPart l2).2).2 rfl
      have hass := parseNumLex_assemble ['-'] ip (parseFracPart l2).1
        (parseExpPart (parseFracPart l2).2).1 (Or.inr rfl) hipne hipdig hfp hep
      refine ⟨?_, hass.1, hass.2.1, hass.2.2.1, hass.2.2.2⟩
      rw [hipeq]
      conv_lhs => rw [hl2eq]
      conv_lhs => rw [hl3eq]
      simp
  · rw [parseNumLex.eq_2 l (fun r' heq => hneg ⟨r', heq⟩)] at h
    dsimp only at h
    cases hip : parseIntDigits l with
    | none => rw [hip] at h; cases h
    | some pr =>
      obtain ⟨ip, l2⟩ := pr
      simp only [hip] at h
      cases h
      obtain ⟨hipeq, hipne, hipdig⟩ := parseIntDigits_split l ip l2 hip
      obtain ⟨hl2eq, hfp⟩ := parseFracPart_split l2 (parseFracPart l2).1
        (parseFracPart l2).2 rfl
      obtain ⟨hl3eq, hep⟩ := parseExpPart_split (parseFracPart l2).2
        (parseExpPart (parseFracPart l2).2).1
        (parseExpPart (parseFracPart l2).2).2 rfl
      have hass := parseNumLex_assemble [] ip (parseFracPart l2).1
        (parseExpPart (parseFracPart l2).2).1 (Or.inl rfl) hipne hipdig hfp hep
      refine ⟨?_, ?_, ?_, ?_, ?_⟩
      · conv_lhs => rw [hipeq]
        conv_lhs => rw [hl2eq]
        conv_lhs => rw [hl3eq]
        simp
      · simpa using hass.1
      · intro c hc
        refine hass.2.1 c ?_
        simpa using hc
      · intro c hc
        refine hass.2.2.1 c ?_
        simpa using hc
      · intro c hc
        refine hass.2.2.2 c ?_
        simpa using hc

/-- A consumed number lexeme scans the same way in front of any new
tail that cannot extend a number. -/
theorem parseNumLex_retarget (l lex r : List Char)
    (h : parseNumLex l = some (lex, r)) (r2 : List Char)
    (hr2 : noNumExt r2) :
    parseNumLex (lex ++ r2) = some (lex, r2) := by
  by_cases hneg : ∃ r0, l = '-' :: r0
  · obtain ⟨r0, rfl⟩ := hneg
    rw [parseNumLex.eq_1] at h
    dsimp only at h
    cases hip : parseIntDigits r0 with
    | none => rw [hip] at h; cases h
    | some pr =>
      obtain ⟨ip, l2⟩ := pr
      simp only [hip] at h
      cases h
      obtain ⟨hipeq, hipne, hipdig⟩ := parseIntDigits_split r0 ip l2 hip
      obtain ⟨hl2eq, hfp⟩ := parseFracPart_split l2 (parseFracPart l2).1
        (parseFracPart l2).2 rfl
      obtain ⟨hl3eq, hep⟩ := parseExpPart_split (parseFracPart l2).2
        (parseExpPart (parseFracPart l2).2).1
        (parseExpPart (parseFracPart l2).2).2 rfl
      have hepr2head : ∀ c,
          ((parseExpPart (parseFracPart l2).2).1 ++ r2).head? = some c →
          isDigitC c = false ∧ c ≠ '.' := by
        intro c hc
        rcases hep with hnil | ⟨e, sg, ds, hepeq, he2, _, _, _⟩
        · rw [hnil, List.nil_append] at hc
          exact ⟨(hr2 c hc).1, (hr2 c hc).2.1⟩
        · rw [hepeq, List.cons_append, List.head?_cons,
            Option.some.injEq] at hc
          subst hc
          simp only [Bool.or_eq_true, decide_eq_true_eq] at he2
          rcases he2 with rfl | rfl <;> exact ⟨by decide, by decide⟩
      have hfrac : parseFracPart ((parseFracPart l2).1 ++
          ((parseExpPart (parseFracPart l2).2).1 ++ r2)) =
          ((parseFracPart l2).1,
           (parseExpPart (parseFracPart l2).2).1 ++ r2) := by
        rcases hfp with hnil | ⟨ds, hfpeq, hdsne, hds⟩
        · rw [hnil, List.nil_append]
          exact parseFracPart_no_dot _ (fun c hc => (hepr2head c hc).2)
        · rw [hfpeq]
          exact parseFracPart_run ds _ hdsne hds
            (fun c hc => (hepr2head c hc).1)
      have hexp : parseExpPart ((parseExpPart (parseFracPart l2).2).1 ++ r2) =
          ((parseExpPart (parseFracPart l2).2).1, r2) := by
        rcases hep with hnil | ⟨e, sg, ds, hepeq, he2, hsg, hdsne, hds⟩
        · rw [hnil, List.nil_append]
          exact parseExpPart_no_e r2
            (fun c hc => ⟨(hr2 c hc).2.2.1, (hr2 c hc).2.2.2⟩)
        · rw [hepeq]
          have hstop : ∀ c, r2.head? = some c → isDigitC c = false :=
            fun c hc => (hr2 c hc).1
          rcases hsg with rfl | hsg
          · simp only [List.nil_append]
            exact parseExpPart_run_nosign e ds r2 he2 hdsne hds hstop
          · simp only [Bool.or_eq_true, decide_eq_true_eq] at hsg
            rcases hsg with rfl | rfl
            · exact parseExpPart_run_sign e '+' ds r2 he2 (by decide)
                hdsne hds hstop
            · exact parseExpPart_run_sign e '-' ds r2 he2 (by decide)
                hdsne hds hstop
      have hint : parseIntDigits (ip ++ ((parseFracPart l2).1 ++
          ((parseExpPart (parseFracPart l2).2).1 ++ r2))) =
          some (ip, (parseFracPart l2).1 ++
            ((parseExpPart (parseFracPart l2).2).1 ++ r2)) := by
        refine parseIntDigits_retarget r0 ip l2 hip _ ?_
        intro c hc
        rcases hfp with hnil | ⟨ds, hfpeq, hdsne, hds⟩
        · rw [hnil, List.nil_append] at hc
          exact (hepr2head c hc).1
        · rw [hfpeq, List.cons_append, List.head?_cons,
            Option.some.injEq] at hc
          subst hc
          decide
      show parseNumLex ('-' :: (ip ++ (parseFracPart l2).1 ++
        (parseExpPart (parseFracPart l2).2).1 ++ r2)) = _
      rw [parseNumLex.eq_1]
      dsimp only
      rw [show ip ++ (parseFracPart l2).1 ++
        (parseExpPart (parseFracPart l2).2).1 ++ r2 =
        ip ++ ((parseFracPart l2).1 ++
          ((parseExpPart (parseFracPart l2).2).1 ++ r2)) by
        simp [List.append_assoc]]
      rw [hint]
      simp only [hfrac, hexp]
  · rw [parseNumLex.eq_2 l (fun r' heq => hneg ⟨r', heq⟩)] at h
    dsimp only at h
    cases hip : parseIntDigits l with
    | none => rw [hip] at h; cases h
    | some pr =>
      obtain ⟨ip, l2⟩ := pr
      simp only [hip] at h
      cases h
      obtain ⟨hipeq, hipne, hipdig⟩ := parseIntDigits_split l ip l2 hip
      obtain ⟨hl2eq, hfp⟩ := parseFracPart_split l2 (parseFracPart l2).1
        (parseFracPart l2).2 rfl
      obtain ⟨hl3eq, hep⟩ := parseExpPart_split (parseFracPart l2).2
        (parseExpPart (parseFracPart l2).2).1
        (parseExpPart (parseFracPart l2).2).2 rfl
      have hepr2head : ∀ c,
          ((parseExpPart (parseFracPart l2).2).1 ++ r2).head? = some c →
          isDigitC c = false ∧ c ≠ '.' := by
        intro c hc
        rcases hep with hnil | ⟨e, sg, ds, hepeq, he2, _, _, _⟩
        · rw [hnil, List.nil_append] at hc
          exact ⟨(hr2 c hc).1, (hr2 c hc).2.1⟩
        · rw [hepeq, List.cons_append, List.head?_cons,
            Option.some.injEq] at hc
          subst hc
          simp only [Bool.or_eq_true, decide_eq_true_eq] at he2
          rcases he2 with rfl | rfl <;> exact ⟨by decide, by decide⟩
      have hfrac : parseFracPart ((parseFracPart l2).1 ++
          ((parseExpPart (parseFracPart l2).2).1 ++ r2)) =
          ((parseFracPart l2).1,
           (parseExpPart (parseFracPart l2).2).1 ++ r2) := by
        rcases hfp with hnil | ⟨ds, hfpeq, hdsne, hds⟩
        · rw [hnil, List.nil_append]
          exact parseFracPart_no_dot _ (fun c hc => (hepr2head c hc).2)
        · rw [hfpeq]
          exact parseFracPart_run ds _ hdsne hds
            (fun c hc => (hepr2head c hc).1)
      have hexp : parseExpPart ((parseExpPart (parseFracPart l2).2).1 ++ r2) =
          ((parseExpPart (parseFracPart l2).2).1, r2) := by
        rcases hep with hnil | ⟨e, sg, ds, hepeq, he2, hsg, hdsne, hds⟩
        · rw [hnil, List.nil_append]
          exact parseExpPart_no_e r2
            (fun c hc => ⟨(hr2 c hc).2.2.1, (hr2 c hc).2.2.2⟩)
        · rw [hepeq]
          have hstop : ∀ c, r2.head? = some c → isDigitC c = false :=
            fun c hc => (hr2 c hc).1
          rcases hsg with rfl | hsg
          · simp only [List.nil_append]
            exact parseExpPart_run_nosign e ds r2 he2 hdsne hds hstop
          · simp only [Bool.or_eq_true, decide_eq_true_eq] at hsg
            rcases hsg with rfl | rfl
            · exact parseExpPart_run_sign e '+' ds r2 he2 (by decide)
                hdsne hds hstop
            · exact parseExpPart_run_sign e '-' ds r2 he2 (by decide)
                hdsne hds hstop
      have hint : parseIntDigits (ip ++ ((parseFracPart l2).1 ++
          ((parseExpPart (parseFracPart l2).2).1 ++ r2))) =
          some (ip, (parseFracPart l2).1 ++
            ((parseExpPart (parseFracPart l2).2).1 ++ r2)) := by
        refine parseIntDigits_retarget l ip l2 hip _ ?_
        intro c hc
        rcases hfp with hnil | ⟨ds, hfpeq, hdsne, hds⟩
        · rw [hnil, List.nil_append] at hc
          exact (hepr2head c hc).1
        · rw [hfpeq, List.cons_append, List.head?_cons,
            Option.some.injEq] at hc
          subst hc
          decide
      have hnoneg : ∀ r', ([] ++ ip ++ (parseFracPart l2).1 ++
          (parseExpPart (parseFracPart l2).2).1 ++ r2) = '-' :: r' → False := by
        intro r' heq
        cases hipc : ip with
        | nil => exact hipne hipc
        | cons a t =>
          rw [hipc] at heq
          simp only [List.nil_append, List.cons_append] at heq
          have ha : a = '-' := (List.cons_eq_cons.mp heq).1
          have := hipdig a (by rw [hipc]; simp)
          rw [ha] at this
          cases this
      rw [parseNumLex.eq_2 _ hnoneg]
      dsimp only
      rw [show ([] ++ ip ++ (parseFracPart l2).1 ++
        (parseExpPart (parseFracPart l2).2).1 ++ r2) =
        ip ++ ((parseFracPart l2).1 ++
          ((parseExpPart (parseFracPart l2).2).1 ++ r2)) by
        simp [List.append_assoc]]
      rw [hint]
      simp only [hfrac, hexp]

/-! ## Fence-freedom lemmas for C7 -/

/-- A backtick-free list is fence-free. -/
theorem FlankFree_no_backtick (l : List Char) (h : '\x60' ∉ l) :
    FlankFree l := by
  intro a b heq
  exfalso
  apply h
  rw [heq]
  simp

/-- A list without newlines and without a backtick at either end is
fence-free. -/
theorem FlankFree_clean (l : List Char) (hnl : ∀ c ∈ l, c ≠ '\n')
    (hh : ∀ c, l.head? = some c → c ≠ '\x60')
    (hl : ∀ c, l.getLast? = some c → c ≠ '\x60') : FlankFree l := by
  intro a b heq
  constructor
  · cases ha : a with
    | nil =>
      subst ha
      exfalso
      refine hh '\x60' ?_ rfl
      rw [heq]
      rfl
    | cons x t =>
      subst ha
      refine ⟨(x :: t).getLast (by simp), List.getLast?_eq_getLast _ _, ?_⟩
      refine hnl _ ?_
      rw [heq]
      exact List.mem_append_left _ (List.getLast_mem _)
  · cases hb : b with
    | nil =>
      subst hb
      exfalso
      refine hl '\x60' ?_ rfl
      rw [heq, getLast?_append_right _ _ (by simp)]
      rfl
    | cons y t =>
      subst hb
      refine ⟨y, rfl, ?_⟩
      refine hnl y ?_
      rw [heq]
      simp

/-- Fence-freedom is preserved by append. -/
theorem FlankFree_append (l1 l2 : List Char) (h1 : FlankFree l1)
    (h2 : FlankFree l2) : FlankFree (l1 ++ l2) := by
  intro a b heq
  rcases List.append_eq_append_iff.mp heq with ⟨k, hk1, hk2⟩ | ⟨k, hk1, hk2⟩
  · -- a = l1 ++ k and l2 = k ++ backtick b
    obtain ⟨⟨x, hx1, hx2⟩, ⟨y, hy1, hy2⟩⟩ := h2 k b hk2
    have hkne : k ≠ [] := by
      intro hc
      rw [hc] at hx1
      cases hx1
    refine ⟨⟨x, ?_, hx2⟩, ⟨y, hy1, hy2⟩⟩
    rw [hk1, getLast?_append_right _ _ hkne]
    exact hx1
  · -- l1 = a ++ k and backtick b = k ++ l2
    cases hkc : k with
    | nil =>
      rw [hkc, List.nil_append] at hk2
      obtain ⟨⟨x, hx1, _⟩, _⟩ := h2 [] b hk2.symm
      cases hx1
    | cons z t =>
      rw [hkc] at hk2
      have hz : z = '\x60' := (List.cons_eq_cons.mp hk2.symm).1
      have hbt : b = t ++ l2 := ((List.cons_eq_cons.mp hk2.symm).2).symm
      subst hz
      rw [hkc] at hk1
      obtain ⟨⟨x, hx1, hx2⟩, ⟨y, hy1, hy2⟩⟩ := h1 a t hk1
      refine ⟨⟨x, hx1, hx2⟩, ⟨y, ?_, hy2⟩⟩
      have htne : t ≠ [] := by
        intro hc
        rw [hc] at hy1
        cases hy1
      rw [hbt, List.head?_append_of_ne_nil _ htne]
      exact hy1

/-- JSON whitespace is Python whitespace, is small, and is not the
backtick. -/
theorem isJsonWs_props (c : Char) (h : isJsonWs c = true) :
    isPySpace c = true ∧ c.toNat ≤ 32 ∧ c ≠ '\x60' ∧ c ≠ '\x7d' ∧
      c ≠ ']' ∧ c ≠ ',' ∧ c ≠ ':' ∧ isDigitC c = false ∧ c ≠ '.' ∧
      c ≠ 'e' ∧ c ≠ 'E' := by
  unfold isJsonWs at h
  simp only [Bool.or_eq_true, decide_eq_true_eq] at h
  rcases h with ((rfl | rfl) | rfl) | rfl <;>
    exact ⟨by decide, by decide, by decide, by decide, by decide, by decide,
      by decide, by decide, by decide, by decide, by decide⟩


/-! ## Scanner-consumption helpers for C7 -/

/-- Splitting a list at its leading whitespace run. -/
theorem skipWs_split (l : List Char) :
    ∃ tk, l = tk ++ skipWs l ∧ ∀ c ∈ tk, isJsonWs c = true :=
  dropWhile_append_split isJsonWs l

/-- skipWs jumps over an all-whitespace prefix. -/
theorem skipWs_append_ws (tk b : List Char)
    (h : ∀ c ∈ tk, isJsonWs c = true) : skipWs (tk ++ b) = skipWs b := by
  unfold skipWs
  exact (takeWhile_append_all isJsonWs tk b h).2

/-- skipWs is the identity on a list with a non-whitespace head. -/
theorem skipWs_eq_self (l : List Char)
    (h : ∀ c, l.head? = some c → isJsonWs c = false) : skipWs l = l :=
  dropWhile_eq_self_of_head isJsonWs l h

/-- Combination of the two previous facts. -/
theorem skipWs_ws_append_head (tk b : List Char)
    (htk : ∀ c ∈ tk, isJsonWs c = true)
    (hb : ∀ c, b.head? = some c → isJsonWs c = false) :
    skipWs (tk ++ b) = b := by
  rw [skipWs_append_ws tk b htk]
  exact skipWs_eq_self b hb

/-- The empty tail cannot extend a number lexeme. -/
theorem noNumExt_nil : noNumExt [] := by
  intro c hc
  cases hc

/-- A tail headed by a non-number character cannot extend a lexeme. -/
theorem noNumExt_cons (c : Char) (t : List Char) (h1 : isDigitC c = false)
    (h2 : c ≠ '.') (h3 : c ≠ 'e') (h4 : c ≠ 'E') : noNumExt (c :: t) := by
  intro d hd
  cases hd
  exact ⟨h1, h2, h3, h4⟩

/-- Prepending whitespace preserves the no-number-extension property. -/
theorem noNumExt_ws_append (tk b : List Char)
    (htk : ∀ c ∈ tk, isJsonWs c = true) (hb : noNumExt b) :
    noNumExt (tk ++ b) := by
  cases tk with
  | nil => simpa using hb
  | cons c t =>
    intro d hd
    rw [List.cons_append, List.head?_cons] at hd
    cases hd
    have hp := isJsonWs_props c (htk c (by simp))
    exact ⟨hp.2.2.2.2.2.2.2.1, hp.2.2.2.2.2.2.2.2.1, hp.2.2.2.2.2.2.2.2.2.1,
      hp.2.2.2.2.2.2.2.2.2.2⟩

/-- A list without backticks is fence-free. -/
theorem FlankFree_of_all (l : List Char) (h : ∀ c ∈ l, c ≠ '\x60') :
    FlankFree l :=
  FlankFree_no_backtick l (fun hm => h _ hm rfl)

/-- An all-whitespace run is fence-free. -/
theorem FlankFree_ws (tk : List Char) (h : ∀ c ∈ tk, isJsonWs c = true) :
    FlankFree tk :=
  FlankFree_of_all tk (fun c hc => (isJsonWs_props c (h c hc)).2.2.1)

/-- The consumed region of a string literal is fence-free: its body holds
no control characters, hence no newlines, and it is delimited by
quotes. -/
theorem FlankFree_str (cs : List Char) (hcs : ∀ c ∈ cs, 32 ≤ c.toNat) :
    FlankFree ('\"' :: (cs ++ ['\"'])) := by
  apply FlankFree_clean
  · intro c hc
    apply char_ne_of_toNat
    rw [show ('\n').toNat = 10 from rfl]
    rcases List.mem_cons.mp hc with rfl | hc2
    · decide
    rcases List.mem_append.mp hc2 with hc3 | hc3
    · have := hcs c hc3
      omega
    · rcases List.mem_singleton.mp hc3 with rfl
      decide
  · intro c hc
    cases hc
    decide
  · intro c hc
    rw [show '\"' :: (cs ++ ['\"']) = ('\"' :: cs) ++ ['\"'] from by simp,
      getLast?_append_right _ _ (by simp)] at hc
    cases hc
    decide

/-- Packaging of the GoodCon record for backtick-free regions. -/
theorem GoodCon_of_no_backtick (l : List Char) (hne : l ≠ [])
    (hbt : ∀ c ∈ l, c ≠ '\x60')
    (hh : ∀ c, l.head? = some c → isPySpace c = false ∧ c ≠ '\x60')
    (hl : ∀ c, l.getLast? = some c → isPySpace c = false ∧ c ≠ '\x60') :
    GoodCon l :=
  ⟨FlankFree_of_all l hbt, hne, hh, hl⟩

/-- Decimal digits in code points. -/
theorem isDigitC_range (c : Char) (h : isDigitC c = true) :
    48 ≤ c.toNat ∧ c.toNat ≤ 57 := by
  unfold isDigitC at h
  simp only [Bool.and_eq_true, decide_eq_true_eq] at h
  exact h

/-- JSON whitespace is a subset of Python whitespace, contrapositive. -/
theorem isJsonWs_false_of_py (c : Char) (h : isPySpace c = false) :
    isJsonWs c = false := by
  cases hj : isJsonWs c with
  | false => rfl
  | true => rw [(isJsonWs_props c hj).1] at h; cases h

/-- A list is a Boolean prefix of itself extended by any tail. -/
theorem isPrefixOf_self_append (p t : List Char) :
    p.isPrefixOf (p ++ t) = true :=
  List.isPrefixOf_iff_prefix.mpr (List.prefix_append p t)

/-- The consumed region of the scanner: every successful call splits its
input as consumed-region plus remainder, the region is fence-free with
non-whitespace non-backtick delimiters, its head fits the mode, and the
call can be replayed on the region followed by any tail that cannot
extend a trailing number lexeme, with fuel one above the region
length. -/
theorem parseF_good (f : Nat) : ∀ m l res r, parseF f m l = some (res, r) →
    ∃ con, l = con ++ r ∧ GoodCon con ∧ headFacts m con ∧
      ∀ g r2, con.length + 1 ≤ g → noNumExt r2 →
        parseF g m (con ++ r2) = some (res, r2) := by
  induction f with
  | zero =>
    intro m l res r h
    rw [parseF.eq_1] at h
    cases h
  | succ f ih =>
    intro m l res r h
    cases m with
    | val =>
      cases l with
      | nil => rw [parseF.eq_2] at h; cases h
      | cons c rest =>
        rw [parseF.eq_3] at h
        by_cases hc1 : c = '\"'
        · subst hc1
          rw [if_pos rfl] at h
          rcases hps : parseStrChars rest with _ | ⟨cs, r1⟩
          · simp only [hps] at h
            cases h
          · simp only [hps] at h
            cases h
            obtain ⟨hsplit, hge⟩ := parseStrChars_split rest cs r hps
            refine ⟨'\"' :: (cs ++ ['\"']), ?_, ?_, ?_, ?_⟩
            · rw [hsplit]
              simp
            · refine ⟨FlankFree_str cs hge, by simp, ?_, ?_⟩
              · intro c0 hc0
                cases hc0
                exact ⟨by decide, by decide⟩
              · intro c0 hc0
                rw [show '\"' :: (cs ++ ['\"']) = ('\"' :: cs) ++ ['\"'] from by simp,
                  getLast?_append_right _ _ (by simp)] at hc0
                cases hc0
                exact ⟨by decide, by decide⟩
            · intro c0 hc0
              cases hc0
              exact Or.inl rfl
            · intro g r2 hg hnne
              cases g with
              | zero => omega
              | succ g2 =>
                rw [show ('\"' :: (cs ++ ['\"'])) ++ r2 = '\"' :: (cs ++ '\"' :: r2) from by simp,
                  parseF.eq_3, if_pos rfl, parseStrChars_retarget rest cs r hps r2]
        rw [if_neg hc1] at h
        by_cases hc2 : c = '\x7b'
        · subst hc2
          rw [if_pos rfl] at h
          rcases hsw : skipWs rest with _ | ⟨c2, r2a⟩
          · simp only [hsw] at h
            cases h
          · simp only [hsw] at h
            by_cases hc2b : c2 = '\x7d'
            · subst hc2b
              rw [if_pos rfl] at h
              cases h
              obtain ⟨tk, htk, htkws⟩ := skipWs_split rest
              rw [hsw] at htk
              refine ⟨'\x7b' :: (tk ++ ['\x7d']), ?_, ?_, ?_, ?_⟩
              · rw [htk]
                simp
              · refine GoodCon_of_no_backtick _ (by simp) ?_ ?_ ?_
                · intro c0 hc0
                  rcases List.mem_cons.mp hc0 with rfl | hc0b
                  · decide
                  rcases List.mem_append.mp hc0b with hc0c | hc0c
                  · exact (isJsonWs_props c0 (htkws c0 hc0c)).2.2.1
                  · rcases List.mem_singleton.mp hc0c with rfl
                    decide
                · intro c0 hc0
                  cases hc0
                  exact ⟨by decide, by decide⟩
                · intro c0 hc0
                  rw [show '\x7b' :: (tk ++ ['\x7d']) = ('\x7b' :: tk) ++ ['\x7d'] from by simp,
                    getLast?_append_right _ _ (by simp)] at hc0
                  cases hc0
                  exact ⟨by decide, by decide⟩
              · intro c0 hc0
                cases hc0
                exact Or.inr (Or.inl rfl)
              · intro g r2 hg hnne
                cases g with
                | zero => omega
                | succ g2 =>
                  rw [show ('\x7b' :: (tk ++ ['\x7d'])) ++ r2 = '\x7b' :: (tk ++ '\x7d' :: r2) from by simp,
                    parseF.eq_3, if_neg (by decide), if_pos rfl,
                    skipWs_ws_append_head tk _ htkws (by intro c0 hc0; cases hc0; decide)]
                  simp
            · rw [if_neg hc2b] at h
              rcases hrec : parseF f PMode.mems (c2 :: r2a) with _ | ⟨⟨pm, r3⟩⟩
              · simp only [hrec] at h
                cases h
              · rcases pm with v0 | fs | es0
                · simp only [hrec] at h
                  cases h
                · simp only [hrec] at h
                  cases h
                  obtain ⟨conM, hsplitM, hgcM, hhfM, hretM⟩ :=
                    ih PMode.mems (c2 :: r2a) (PRes.mems fs) r hrec
                  obtain ⟨hffM, hneM, hhdM, hlaM⟩ := hgcM
                  obtain ⟨tM, htM⟩ := hhfM
                  obtain ⟨tk, htk, htkws⟩ := skipWs_split rest
                  rw [hsw] at htk
                  refine ⟨'\x7b' :: (tk ++ conM), ?_, ?_, ?_, ?_⟩
                  · rw [htk, hsplitM]
                    simp
                  · refine ⟨?_, by simp, ?_, ?_⟩
                    · rw [show '\x7b' :: (tk ++ conM) = ('\x7b' :: tk) ++ conM from by simp]
                      refine FlankFree_append _ _ ?_ hffM
                      apply FlankFree_of_all
                      intro c0 hc0
                      rcases List.mem_cons.mp hc0 with rfl | hc0b
                      · decide
                      · exact (isJsonWs_props c0 (htkws c0 hc0b)).2.2.1
                    · intro c0 hc0
                      cases hc0
                      exact ⟨by decide, by decide⟩
                    · intro c0 hc0
                      rw [show '\x7b' :: (tk ++ conM) = ('\x7b' :: tk) ++ conM from by simp,
                        getLast?_append_right _ _ hneM] at hc0
                      exact hlaM c0 hc0
                  · intro c0 hc0
                    cases hc0
                    exact Or.inr (Or.inl rfl)
                  · intro g r2 hg hnne
                    cases g with
                    | zero => omega
                    | succ g2 =>
                      have hlen : conM.length + 1 ≤ g2 := by
                        simp only [List.length_cons, List.length_append] at hg
                        omega
                      have e1 : conM ++ r2 = '\"' :: (tM ++ r2) := by rw [htM]; rfl
                      have e2 : skipWs (tk ++ (conM ++ r2)) = '\"' :: (tM ++ r2) := by
                        rw [skipWs_ws_append_head tk _ htkws ?_, e1]
                        intro c0 hc0
                        rw [e1] at hc0
                        cases hc0
                        decide
                      have e3 : parseF g2 PMode.mems ('\"' :: (tM ++ r2)) =
                          some (PRes.mems fs, r2) := by
                        rw [← e1]
                        exact hretM g2 r2 hlen hnne
                      rw [show ('\x7b' :: (tk ++ conM)) ++ r2 = '\x7b' :: (tk ++ (conM ++ r2)) from by simp,
                        parseF.eq_3, if_neg (by decide), if_pos rfl, e2]
                      simp [e3]
                · simp only [hrec] at h
                  cases h
        rw [if_neg hc2] at h
        by_cases hc3 : c = '['
        · subst hc3
          rw [if_pos rfl] at h
          rcases hsw : skipWs rest with _ | ⟨c2, r2a⟩
          · simp only [hsw] at h
            cases h
          · simp only [hsw] at h
            by_cases hc2b : c2 = ']'
            · subst hc2b
              rw [if_pos rfl] at h
              cases h
              obtain ⟨tk, htk, htkws⟩ := skipWs_split rest
              rw [hsw] at htk
              refine ⟨'[' :: (tk ++ [']']), ?_, ?_, ?_, ?_⟩
              · rw [htk]
                simp
              · refine GoodCon_of_no_backtick _ (by simp) ?_ ?_ ?_
                · intro c0 hc0
                  rcases List.mem_cons.mp hc0 with rfl | hc0b
                  · decide
                  rcases List.mem_append.mp hc0b with hc0c | hc0c
                  · exact (isJsonWs_props c0 (htkws c0 hc0c)).2.2.1
                  · rcases List.mem_singleton.mp hc0c with rfl
                    decide
                · intro c0 hc0
                  cases hc0
                  exact ⟨by decide, by decide⟩
                · intro c0 hc0
                  rw [show '[' :: (tk ++ [']']) = ('[' :: tk) ++ [']'] from by simp,
                    getLast?_append_right _ _ (by simp)] at hc0
                  cases hc0
                  exact ⟨by decide, by decide⟩
              · intro c0 hc0
                cases hc0
                exact Or.inr (Or.inr (Or.inl rfl))
              · intro g r2 hg hnne
                cases g with
                | zero => omega
                | succ g2 =>
                  rw [show ('[' :: (tk ++ [']'])) ++ r2 = '[' :: (tk ++ ']' :: r2) from by simp,
                    parseF.eq_3, if_neg (by decide), if_neg (by decide), if_pos rfl,
                    skipWs_ws_append_head tk _ htkws (by intro c0 hc0; cases hc0; decide)]
                  simp
            · rw [if_neg hc2b] at h
              rcases hrec : parseF f PMode.elems (c2 :: r2a) with _ | ⟨⟨pe, r3⟩⟩
              · simp only [hrec] at h
                cases h
              · rcases pe with v0 | fs0 | es
                · simp only [hrec] at h
                  cases h
                · simp only [hrec] at h
                  cases h
                · simp only [hrec] at h
                  cases h
                  obtain ⟨conE, hsplitE, hgcE, hhfE, hretE⟩ :=
                    ih PMode.elems (c2 :: r2a) (PRes.elems es) r hrec
                  obtain ⟨hffE, hneE, hhdE, hlaE⟩ := hgcE
                  obtain ⟨tk, htk, htkws⟩ := skipWs_split rest
                  rw [hsw] at htk
                  obtain ⟨cE, tE, hcE⟩ : ∃ cE tE, conE = cE :: tE := by
                    cases hconE : conE with
                    | nil => exact absurd hconE hneE
                    | cons a b => exact ⟨a, b, rfl⟩
                  have hc2eq : c2 = cE := by
                    rw [hcE] at hsplitE
                    exact (List.cons_eq_cons.mp hsplitE).1
                  refine ⟨'[' :: (tk ++ conE), ?_, ?_, ?_, ?_⟩
                  · rw [htk, hsplitE, hcE]
                    simp
                  · refine ⟨?_, by simp, ?_, ?_⟩
                    · rw [show '[' :: (tk ++ conE) = ('[' :: tk) ++ conE from by simp]
                      refine FlankFree_append _ _ ?_ hffE
                      apply FlankFree_of_all
                      intro c0 hc0
                      rcases List.mem_cons.mp hc0 with rfl | hc0b
                      · decide
                      · exact (isJsonWs_props c0 (htkws c0 hc0b)).2.2.1
                    · intro c0 hc0
                      cases hc0
                      exact ⟨by decide, by decide⟩
                    · intro c0 hc0
                      rw [show '[' :: (tk ++ conE) = ('[' :: tk) ++ conE from by simp,
                        getLast?_append_right _ _ hneE] at hc0
                      exact hlaE c0 hc0
                  · intro c0 hc0
                    cases hc0
                    exact Or.inr (Or.inr (Or.inl rfl))
                  · intro g r2 hg hnne
                    cases g with
                    | zero => omega
                    | succ g2 =>
                      have hlen : conE.length + 1 ≤ g2 := by
                        simp only [List.length_cons, List.length_append] at hg
                        omega
                      have e1 : conE ++ r2 = cE :: (tE ++ r2) := by rw [hcE]; rfl
                      have e2 : skipWs (tk ++ (conE ++ r2)) = cE :: (tE ++ r2) := by
                        rw [skipWs_ws_append_head tk _ htkws ?_, e1]
                        intro c0 hc0
                        rw [e1] at hc0
                        cases hc0
                        exact isJsonWs_false_of_py _ (hhdE _ (by rw [hcE]; rfl)).1
                      have e3 : parseF g2 PMode.elems (cE :: (tE ++ r2)) =
                          some (PRes.elems es, r2) := by
                        rw [← e1]
                        exact hretE g2 r2 hlen hnne
                      have hcEne : ¬ (cE = ']') := fun hh => hc2b (by rw [hc2eq, hh])
                      rw [show ('[' :: (tk ++ conE)) ++ r2 = '[' :: (tk ++ (conE ++ r2)) from by simp,
                        parseF.eq_3, if_neg (by decide), if_neg (by decide), if_pos rfl, e2]
                      simp [e3, hcEne]
        rw [if_neg hc3] at h
        by_cases hk1 : (decide (c = 't') && ['r', 'u', 'e'].isPrefixOf rest) = true
        · rw [if_pos hk1] at h
          rw [Bool.and_eq_true, decide_eq_true_eq] at hk1
          obtain ⟨rfl, hpre⟩ := hk1
          obtain ⟨r1, rfl⟩ : ∃ r1, rest = ['r', 'u', 'e'] ++ r1 := by
            obtain ⟨r1, hr1⟩ := List.isPrefixOf_iff_prefix.mp hpre
            exact ⟨r1, hr1.symm⟩
          rw [show (['r', 'u', 'e'] ++ r1).drop 3 = r1 from rfl] at h
          cases h
          refine ⟨['t', 'r', 'u', 'e'], rfl, ?_, ?_, ?_⟩
          · refine GoodCon_of_no_backtick _ (by simp) (by decide) ?_ ?_
            · intro c0 hc0
              cases hc0
              exact ⟨by decide, by decide⟩
            · intro c0 hc0
              cases hc0
              exact ⟨by decide, by decide⟩
          · intro c0 hc0
            cases hc0
            exact Or.inr (Or.inr (Or.inr (Or.inl rfl)))
          · intro g r2 hg hnne
            cases g with
            | zero => omega
            | succ g2 =>
              rw [show ['t', 'r', 'u', 'e'] ++ r2 = 't' :: (['r', 'u', 'e'] ++ r2) from rfl,
                parseF.eq_3, if_neg (by decide), if_neg (by decide), if_neg (by decide),
                if_pos (by rw [isPrefixOf_self_append]; rfl)]
              rfl
        rw [if_neg hk1] at h
        by_cases hk2 : (decide (c = 'f') && ['a', 'l', 's', 'e'].isPrefixOf rest) = true
        · rw [if_pos hk2] at h
          rw [Bool.and_eq_true, decide_eq_true_eq] at hk2
          obtain ⟨rfl, hpre⟩ := hk2
          obtain ⟨r1, rfl⟩ : ∃ r1, rest = ['a', 'l', 's', 'e'] ++ r1 := by
            obtain ⟨r1, hr1⟩ := List.isPrefixOf_iff_prefix.mp hpre
            exact ⟨r1, hr1.symm⟩
          rw [show (['a', 'l', 's', 'e'] ++ r1).drop 4 = r1 from rfl] at h
          cases h
          refine ⟨['f', 'a', 'l', 's', 'e'], rfl, ?_, ?_, ?_⟩
          · refine GoodCon_of_no_backtick _ (by simp) (by decide) ?_ ?_
            · intro c0 hc0
              cases hc0
              exact ⟨by decide, by decide⟩
            · intro c0 hc0
              cases hc0
              exact ⟨by decide, by decide⟩
          · intro c0 hc0
            cases hc0
            exact Or.inr (Or.inr (Or.inr (Or.inr (Or.inl rfl))))
          · intro g r2 hg hnne
            cases g with
            | zero => omega
            | succ g2 =>
              rw [show ['f', 'a', 'l', 's', 'e'] ++ r2 = 'f' :: (['a', 'l', 's', 'e'] ++ r2) from rfl,
                parseF.eq_3, if_neg (by decide), if_neg (by decide), if_neg (by decide), if_neg (by simp),
                if_pos (by rw [isPrefixOf_self_append]; rfl)]
              rfl
        rw [if_neg hk2] at h
        by_cases hk3 : (decide (c = 'n') && ['u', 'l', 'l'].isPrefixOf rest) = true
        · rw [if_pos hk3] at h
          rw [Bool.and_eq_true, decide_eq_true_eq] at hk3
          obtain ⟨rfl, hpre⟩ := hk3
          obtain ⟨r1, rfl⟩ : ∃ r1, rest = ['u', 'l', 'l'] ++ r1 := by
            obtain ⟨r1, hr1⟩ := List.isPrefixOf_iff_prefix.mp hpre
            exact ⟨r1, hr1.symm⟩
          rw [show (['u', 'l', 'l'] ++ r1).drop 3 = r1 from rfl] at h
          cases h
          refine ⟨['n', 'u', 'l', 'l'], rfl, ?_, ?_, ?_⟩
          · refine GoodCon_of_no_backtick _ (by simp) (by decide) ?_ ?_
            · intro c0 hc0
              cases hc0
              exact ⟨by decide, by decide⟩
            · intro c0 hc0
              cases hc0
              exact ⟨by decide, by decide⟩
          · intro c0 hc0
            cases hc0
            exact Or.inr (Or.inr (Or.inr (Or.inr (Or.inr (Or.inl rfl)))))
          · intro g r2 hg hnne
            cases g with
            | zero => omega
            | succ g2 =>
              rw [show ['n', 'u', 'l', 'l'] ++ r2 = 'n' :: (['u', 'l', 'l'] ++ r2) from rfl,
                parseF.eq_3, if_neg (by decide), if_neg (by decide), if_neg (by decide), if_neg (by simp), if_neg (by simp),
                if_pos (by rw [isPrefixOf_self_append]; rfl)]
              rfl
        rw [if_neg hk3] at h
        by_cases hk4 : (decide (c = 'N') && ['a', 'N'].isPrefixOf rest) = true
        · rw [if_pos hk4] at h
          rw [Bool.and_eq_true, decide_eq_true_eq] at hk4
          obtain ⟨rfl, hpre⟩ := hk4
          obtain ⟨r1, rfl⟩ : ∃ r1, rest = ['a', 'N'] ++ r1 := by
            obtain ⟨r1, hr1⟩ := List.isPrefixOf_iff_prefix.mp hpre
            exact ⟨r1, hr1.symm⟩
          rw [show (['a', 'N'] ++ r1).drop 2 = r1 from rfl] at h
          cases h
          refine ⟨['N', 'a', 'N'], rfl, ?_, ?_, ?_⟩
          · refine GoodCon_of_no_backtick _ (by simp) (by decide) ?_ ?_
            · intro c0 hc0
              cases hc0
              exact ⟨by decide, by decide⟩
            · intro c0 hc0
              cases hc0
              exact ⟨by decide, by decide⟩
          · intro c0 hc0
            cases hc0
            exact Or.inr (Or.inr (Or.inr (Or.inr (Or.inr (Or.inr (Or.inl rfl))))))
          · intro g r2 hg hnne
            cases g with
            | zero => omega
            | succ g2 =>
              rw [show ['N', 'a', 'N'] ++ r2 = 'N' :: (['a', 'N'] ++ r2) from rfl,
                parseF.eq_3, if_neg (by decide), if_neg (by decide), if_neg (by decide), if_neg (by simp), if_neg (by simp), if_neg (by simp),
                if_pos (by rw [isPrefixOf_self_append]; rfl)]
              rfl
        rw [if_neg hk4] at h
        by_cases hk5 : (decide (c = 'I') && ['n', 'f', 'i', 'n', 'i', 't', 'y'].isPrefixOf rest) = true
        · rw [if_pos hk5] at h
          rw [Bool.and_eq_true, decide_eq_true_eq] at hk5
          obtain ⟨rfl, hpre⟩ := hk5
          obtain ⟨r1, rfl⟩ : ∃ r1, rest = ['n', 'f', 'i', 'n', 'i', 't', 'y'] ++ r1 := by
            obtain ⟨r1, hr1⟩ := List.isPrefixOf_iff_prefix.mp hpre
            exact ⟨r1, hr1.symm⟩
          rw [show (['n', 'f', 'i', 'n', 'i', 't', 'y'] ++ r1).drop 7 = r1 from rfl] at h
          cases h
          refine ⟨['I', 'n', 'f', 'i', 'n', 'i', 't', 'y'], rfl, ?_, ?_, ?_⟩
          · refine GoodCon_of_no_backtick _ (by simp) (by decide) ?_ ?_
            · intro c0 hc0
              cases hc0
              exact ⟨by decide, by decide⟩
            · intro c0 hc0
              cases hc0
              exact ⟨by decide, by decide⟩
          · intro c0 hc0
            cases hc0
            exact Or.inr (Or.inr (Or.inr (Or.inr (Or.inr (Or.inr (Or.inr (Or.inl rfl)))))))
          · intro g r2 hg hnne
            cases g with
            | zero => omega
            | succ g2 =>
              rw [show ['I', 'n', 'f', 'i', 'n', 'i', 't', 'y'] ++ r2 = 'I' :: (['n', 'f', 'i', 'n', 'i', 't', 'y'] ++ r2) from rfl,
                parseF.eq_3, if_neg (by decide), if_neg (by decide), if_neg (by decide), if_neg (by simp), if_neg (by simp), if_neg (by simp), if_neg (by simp),
                if_pos (by rw [isPrefixOf_self_append]; rfl)]
              rfl
        rw [if_neg hk5] at h
        rcases hnum : parseNumLex (c :: rest) with _ | ⟨lex, r1⟩
        · simp only [hnum] at h
          by_cases hk6 : (decide (c = '-') && ['I', 'n', 'f', 'i', 'n', 'i', 't', 'y'].isPrefixOf rest) = true
          · rw [if_pos hk6] at h
            rw [Bool.and_eq_true, decide_eq_true_eq] at hk6
            obtain ⟨rfl, hpre⟩ := hk6
            obtain ⟨r1, rfl⟩ : ∃ r1, rest = ['I', 'n', 'f', 'i', 'n', 'i', 't', 'y'] ++ r1 := by
              obtain ⟨r1, hr1⟩ := List.isPrefixOf_iff_prefix.mp hpre
              exact ⟨r1, hr1.symm⟩
            rw [show (['I', 'n', 'f', 'i', 'n', 'i', 't', 'y'] ++ r1).drop 8 = r1 from rfl] at h
            cases h
            refine ⟨['-', 'I', 'n', 'f', 'i', 'n', 'i', 't', 'y'], rfl, ?_, ?_, ?_⟩
            · refine GoodCon_of_no_backtick _ (by simp) (by decide) ?_ ?_
              · intro c0 hc0
                cases hc0
                exact ⟨by decide, by decide⟩
              · intro c0 hc0
                cases hc0
                exact ⟨by decide, by decide⟩
            · intro c0 hc0
              cases hc0
              exact Or.inr (Or.inr (Or.inr (Or.inr (Or.inr (Or.inr (Or.inr (Or.inr (Or.inl rfl))))))))
            · intro g r2 hg hnne
              cases g with
              | zero => omega
              | succ g2 =>
                rw [show ['-', 'I', 'n', 'f', 'i', 'n', 'i', 't', 'y'] ++ r2 =
                    '-' :: (['I', 'n', 'f', 'i', 'n', 'i', 't', 'y'] ++ r2) from rfl,
                  parseF.eq_3, if_neg (by decide), if_neg (by decide), if_neg (by decide),
                  if_neg (by simp), if_neg (by simp), if_neg (by simp), if_neg (by simp),
                  if_neg (by simp),
                  show parseNumLex ('-' :: (['I', 'n', 'f', 'i', 'n', 'i', 't', 'y'] ++ r2)) =
                    none from rfl]
                simp [isPrefixOf_self_append]
          · rw [if_neg hk6] at h
            cases h
        · simp only [hnum] at h
          cases h
          obtain ⟨hsplit, hlexne, hall, hhead, hlast⟩ := parseNumLex_split (c :: rest) lex r hnum
          refine ⟨lex, hsplit, ?_, ?_, ?_⟩
          · refine GoodCon_of_no_backtick _ hlexne ?_ ?_ ?_
            · intro c0 hc0
              have hr := isNumChar_range c0 (hall c0 hc0)
              exact char_ne_of_toNat (by rw [show ('\x60').toNat = 96 from rfl]; omega)
            · intro c0 hc0
              have hr := isNumChar_range c0 (hall c0 (List.mem_of_mem_head? hc0))
              exact ⟨isPySpace_false_of_ge33 c0 (by omega),
                char_ne_of_toNat (by rw [show ('\x60').toNat = 96 from rfl]; omega)⟩
            · intro c0 hc0
              have hr := isNumChar_range c0 (hall c0 (List.mem_of_mem_getLast? hc0))
              exact ⟨isPySpace_false_of_ge33 c0 (by omega),
                char_ne_of_toNat (by rw [show ('\x60').toNat = 96 from rfl]; omega)⟩
          · intro c0 hc0
            rcases hhead c0 hc0 with hd | rfl
            · exact Or.inr (Or.inr (Or.inr (Or.inr (Or.inr (Or.inr (Or.inr (Or.inr (Or.inr hd))))))))
            · exact Or.inr (Or.inr (Or.inr (Or.inr (Or.inr (Or.inr (Or.inr (Or.inr (Or.inl rfl))))))))
          · intro g r2 hg hnne
            cases g with
            | zero => omega
            | succ g2 =>
              obtain ⟨c0, lex', rfl⟩ : ∃ c0 lex', lex = c0 :: lex' := by
                cases hx : lex with
                | nil => exact absurd hx hlexne
                | cons a b => exact ⟨a, b, rfl⟩
              have hc0 : isDigitC c0 = true ∨ c0 = '-' := hhead c0 rfl
              have hnum2 : parseNumLex ((c0 :: lex') ++ r2) = some (c0 :: lex', r2) :=
                parseNumLex_retarget _ _ _ hnum r2 hnne
              have hne1 : ¬ (c0 = '\"') := by
                rcases hc0 with hd | rfl
                · have := isDigitC_range c0 hd
                  exact char_ne_of_toNat (by rw [show ('\"').toNat = 34 from rfl]; omega)
                · decide
              have hne2 : ¬ (c0 = '\x7b') := by
                rcases hc0 with hd | rfl
                · have := isDigitC_range c0 hd
                  exact char_ne_of_toNat (by rw [show ('\x7b').toNat = 123 from rfl]; omega)
                · decide
              have hne3 : ¬ (c0 = '[') := by
                rcases hc0 with hd | rfl
                · have := isDigitC_range c0 hd
                  exact char_ne_of_toNat (by rw [show ('[').toNat = 91 from rfl]; omega)
                · decide
              have hkt : ¬ (c0 = 't') := by
                rcases hc0 with hd | rfl
                · have := isDigitC_range c0 hd
                  exact char_ne_of_toNat (by rw [show ('t').toNat = 116 from rfl]; omega)
                · decide
              have hkf : ¬ (c0 = 'f') := by
                rcases hc0 with hd | rfl
                · have := isDigitC_range c0 hd
                  exact char_ne_of_toNat (by rw [show ('f').toNat = 102 from rfl]; omega)
                · decide
              have hkn : ¬ (c0 = 'n') := by
                rcases hc0 with hd | rfl
                · have := isDigitC_range c0 hd
                  exact char_ne_of_toNat (by rw [show ('n').toNat = 110 from rfl]; omega)
                · decide
              have hkN : ¬ (c0 = 'N') := by
                rcases hc0 with hd | rfl
                · have := isDigitC_range c0 hd
                  exact char_ne_of_toNat (by rw [show ('N').toNat = 78 from rfl]; omega)
                · decide
              have hkI : ¬ (c0 = 'I') := by
                rcases hc0 with hd | rfl
                · have := isDigitC_range c0 hd
                  exact char_ne_of_toNat (by rw [show ('I').toNat = 73 from rfl]; omega)
                · decide
              rw [show (c0 :: lex') ++ r2 = c0 :: (lex' ++ r2) from rfl,
                parseF.eq_3, if_neg hne1, if_neg hne2, if_neg hne3,
                if_neg (by simp [hkt]), if_neg (by simp [hkf]), if_neg (by simp [hkn]),
                if_neg (by simp [hkN]), if_neg (by simp [hkI]),
                show c0 :: (lex' ++ r2) = (c0 :: lex') ++ r2 from rfl]
              rw [hnum2]
    | mems =>
      cases l with
      | nil => rw [parseF.eq_4] at h; cases h
      | cons c rest =>
        rw [parseF.eq_5] at h
        by_cases hc1 : c = '\"'
        · subst hc1
          rw [if_pos rfl] at h
          rcases hps : parseStrChars rest with _ | ⟨kcs, r1⟩
          · simp only [hps] at h
            cases h
          · simp only [hps] at h
            rcases hsw1 : skipWs r1 with _ | ⟨c2, r2a⟩
            · simp only [hsw1] at h
              cases h
            · simp only [hsw1] at h
              by_cases hc2 : c2 = ':'
              · subst hc2
                rw [if_pos rfl] at h
                rcases hrecv : parseF f PMode.val (skipWs r2a) with _ | ⟨⟨pv, r3⟩⟩
                · simp only [hrecv] at h
                  cases h
                · rcases pv with v | fs0 | es0
                  · simp only [hrecv] at h
                    rcases hsw3 : skipWs r3 with _ | ⟨c4, r4⟩
                    · simp only [hsw3] at h
                      cases h
                    · simp only [hsw3] at h
                      by_cases hc4 : c4 = ','
                      · subst hc4
                        rw [if_pos rfl] at h
                        rcases hrecm : parseF f PMode.mems (skipWs r4) with _ | ⟨⟨pm, r5⟩⟩
                        · simp only [hrecm] at h
                          cases h
                        · rcases pm with v2 | fs | es2
                          · simp only [hrecm] at h
                            cases h
                          · simp only [hrecm] at h
                            cases h
                            obtain ⟨hsplitS, hgeS⟩ := parseStrChars_split rest kcs r1 hps
                            obtain ⟨conV, hsplitV, hgcV, hhfV, hretV⟩ :=
                              ih PMode.val (skipWs r2a) (PRes.val v) r3 hrecv
                            obtain ⟨hffV, hneV, hhdV, hlaV⟩ := hgcV
                            obtain ⟨conM, hsplitM, hgcM, hhfM, hretM⟩ :=
                              ih PMode.mems (skipWs r4) (PRes.mems fs) r hrecm
                            obtain ⟨hffM, hneM, hhdM, hlaM⟩ := hgcM
                            obtain ⟨tM, htM⟩ := hhfM
                            obtain ⟨tk1, htk1, htk1ws⟩ := skipWs_split r1
                            rw [hsw1] at htk1
                            obtain ⟨tk2, htk2, htk2ws⟩ := skipWs_split r2a
                            rw [hsplitV] at htk2
                            obtain ⟨tk3, htk3, htk3ws⟩ := skipWs_split r3
                            rw [hsw3] at htk3
                            obtain ⟨tk4, htk4, htk4ws⟩ := skipWs_split r4
                            rw [hsplitM] at htk4
                            refine ⟨'\"' :: (kcs ++ '\"' :: (tk1 ++ ':' :: (tk2 ++ (conV ++ (tk3 ++ ',' :: (tk4 ++ conM)))))),
                              ?_, ?_, ?_, ?_⟩
                            · rw [hsplitS, htk1, htk2, htk3, htk4]
                              simp
                            · refine ⟨?_, by simp, ?_, ?_⟩
                              · rw [show '\"' :: (kcs ++ '\"' :: (tk1 ++ ':' :: (tk2 ++ (conV ++ (tk3 ++ ',' :: (tk4 ++ conM)))))) =
                                  ('\"' :: (kcs ++ ['\"'])) ++ ((tk1 ++ ':' :: tk2) ++ (conV ++ ((tk3 ++ ',' :: tk4) ++ conM)))
                                  from by simp]
                                refine FlankFree_append _ _ (FlankFree_str kcs hgeS)
                                  (FlankFree_append _ _ ?_ (FlankFree_append _ _ hffV
                                    (FlankFree_append _ _ ?_ hffM)))
                                · apply FlankFree_of_all
                                  intro c0 hc0
                                  rcases List.mem_append.mp hc0 with hc0b | hc0b
                                  · exact (isJsonWs_props c0 (htk1ws c0 hc0b)).2.2.1
                                  rcases List.mem_cons.mp hc0b with rfl | hc0c
                                  · decide
                                  · exact (isJsonWs_props c0 (htk2ws c0 hc0c)).2.2.1
                                · apply FlankFree_of_all
                                  intro c0 hc0
                                  rcases List.mem_append.mp hc0 with hc0b | hc0b
                                  · exact (isJsonWs_props c0 (htk3ws c0 hc0b)).2.2.1
                                  rcases List.mem_cons.mp hc0b with rfl | hc0c
                                  · decide
                                  · exact (isJsonWs_props c0 (htk4ws c0 hc0c)).2.2.1
                              · intro c0 hc0
                                cases hc0
                                exact ⟨by decide, by decide⟩
                              · intro c0 hc0
                                rw [show '\"' :: (kcs ++ '\"' :: (tk1 ++ ':' :: (tk2 ++ (conV ++ (tk3 ++ ',' :: (tk4 ++ conM)))))) =
                                  ('\"' :: (kcs ++ '\"' :: (tk1 ++ ':' :: (tk2 ++ (conV ++ (tk3 ++ ',' :: tk4)))))) ++ conM
                                  from by simp,
                                  getLast?_append_right _ _ hneM] at hc0
                                exact hlaM c0 hc0
                            · exact ⟨_, rfl⟩
                            · intro g r2 hg hnne
                              cases g with
                              | zero => omega
                              | succ g2 =>
                                have hlenV : conV.length + 1 ≤ g2 := by
                                  simp only [List.length_append, List.length_cons] at hg
                                  omega
                                have hlenM : conM.length + 1 ≤ g2 := by
                                  simp only [List.length_append, List.length_cons] at hg
                                  omega
                                have hnne3 : noNumExt (tk3 ++ ',' :: (tk4 ++ (conM ++ r2))) :=
                                  noNumExt_ws_append tk3 _ htk3ws
                                    (noNumExt_cons ',' _ (by decide) (by decide) (by decide) (by decide))
                                have e1 : parseStrChars (kcs ++ '\"' :: (tk1 ++ ':' :: (tk2 ++ (conV ++ (tk3 ++ ',' :: (tk4 ++ (conM ++ r2))))))) =
                                    some (kcs, tk1 ++ ':' :: (tk2 ++ (conV ++ (tk3 ++ ',' :: (tk4 ++ (conM ++ r2)))))) :=
                                  parseStrChars_retarget rest kcs r1 hps _
                                have e2 : skipWs (tk1 ++ ':' :: (tk2 ++ (conV ++ (tk3 ++ ',' :: (tk4 ++ (conM ++ r2)))))) =
                                    ':' :: (tk2 ++ (conV ++ (tk3 ++ ',' :: (tk4 ++ (conM ++ r2))))) :=
                                  skipWs_ws_append_head tk1 _ htk1ws (by intro c0 hc0; cases hc0; decide)
                                have e3 : skipWs (tk2 ++ (conV ++ (tk3 ++ ',' :: (tk4 ++ (conM ++ r2))))) =
                                    conV ++ (tk3 ++ ',' :: (tk4 ++ (conM ++ r2))) := by
                                  refine skipWs_ws_append_head tk2 _ htk2ws ?_
                                  intro c0 hc0
                                  rw [List.head?_append_of_ne_nil _ hneV] at hc0
                                  exact isJsonWs_false_of_py _ (hhdV _ hc0).1
                                have e4 : parseF g2 PMode.val (conV ++ (tk3 ++ ',' :: (tk4 ++ (conM ++ r2)))) =
                                    some (PRes.val v, tk3 ++ ',' :: (tk4 ++ (conM ++ r2))) :=
                                  hretV g2 _ hlenV hnne3
                                have e5 : skipWs (tk3 ++ ',' :: (tk4 ++ (conM ++ r2))) =
                                    ',' :: (tk4 ++ (conM ++ r2)) :=
                                  skipWs_ws_append_head tk3 _ htk3ws (by intro c0 hc0; cases hc0; decide)
                                have e6 : skipWs (tk4 ++ (conM ++ r2)) = conM ++ r2 := by
                                  refine skipWs_ws_append_head tk4 _ htk4ws ?_
                                  intro c0 hc0
                                  rw [List.head?_append_of_ne_nil _ hneM] at hc0
                                  exact isJsonWs_false_of_py _ (hhdM _ hc0).1
                                have e7 : parseF g2 PMode.mems (conM ++ r2) = some (PRes.mems fs, r2) :=
                                  hretM g2 r2 hlenM hnne
                                rw [show ('\"' :: (kcs ++ '\"' :: (tk1 ++ ':' :: (tk2 ++ (conV ++ (tk3 ++ ',' :: (tk4 ++ conM))))))) ++ r2 =
                                  '\"' :: (kcs ++ '\"' :: (tk1 ++ ':' :: (tk2 ++ (conV ++ (tk3 ++ ',' :: (tk4 ++ (conM ++ r2)))))))
                                  from by simp,
                                  parseF.eq_5, if_pos rfl, e1]
                                simp [e2, e3, e4, e5, e6, e7]
                          · simp only [hrecm] at h
                            cases h
                      · rw [if_neg hc4] at h
                        by_cases hc4b : c4 = '\x7d'
                        · subst hc4b
                          rw [if_pos rfl] at h
                          cases h
                          obtain ⟨hsplitS, hgeS⟩ := parseStrChars_split rest kcs r1 hps
                          obtain ⟨conV, hsplitV, hgcV, hhfV, hretV⟩ :=
                            ih PMode.val (skipWs r2a) (PRes.val v) r3 hrecv
                          obtain ⟨hffV, hneV, hhdV, hlaV⟩ := hgcV
                          obtain ⟨tk1, htk1, htk1ws⟩ := skipWs_split r1
                          rw [hsw1] at htk1
                          obtain ⟨tk2, htk2, htk2ws⟩ := skipWs_split r2a
                          rw [hsplitV] at htk2
                          obtain ⟨tk3, htk3, htk3ws⟩ := skipWs_split r3
                          rw [hsw3] at htk3
                          refine ⟨'\"' :: (kcs ++ '\"' :: (tk1 ++ ':' :: (tk2 ++ (conV ++ (tk3 ++ ['\x7d']))))),
                            ?_, ?_, ?_, ?_⟩
                          · rw [hsplitS, htk1, htk2, htk3]
                            simp
                          · refine ⟨?_, by simp, ?_, ?_⟩
                            · rw [show '\"' :: (kcs ++ '\"' :: (tk1 ++ ':' :: (tk2 ++ (conV ++ (tk3 ++ ['\x7d']))))) =
                                ('\"' :: (kcs ++ ['\"'])) ++ ((tk1 ++ ':' :: tk2) ++ (conV ++ (tk3 ++ ['\x7d'])))
                                from by simp]
                              refine FlankFree_append _ _ (FlankFree_str kcs hgeS)
                                (FlankFree_append _ _ ?_ (FlankFree_append _ _ hffV ?_))
                              · apply FlankFree_of_all
                                intro c0 hc0
                                rcases List.mem_append.mp hc0 with hc0b | hc0b
                                · exact (isJsonWs_props c0 (htk1ws c0 hc0b)).2.2.1
                                rcases List.mem_cons.mp hc0b with rfl | hc0c
                                · decide
                                · exact (isJsonWs_props c0 (htk2ws c0 hc0c)).2.2.1
                              · apply FlankFree_of_all
                                intro c0 hc0
                                rcases List.mem_append.mp hc0 with hc0b | hc0b
                                · exact (isJsonWs_props c0 (htk3ws c0 hc0b)).2.2.1
                                · rcases List.mem_singleton.mp hc0b with rfl
                                  decide
                            · intro c0 hc0
                              cases hc0
                              exact ⟨by decide, by decide⟩
                            · intro c0 hc0
                              rw [show '\"' :: (kcs ++ '\"' :: (tk1 ++ ':' :: (tk2 ++ (conV ++ (tk3 ++ ['\x7d']))))) =
                                ('\"' :: (kcs ++ '\"' :: (tk1 ++ ':' :: (tk2 ++ (conV ++ tk3))))) ++ ['\x7d']
                                from by simp,
                                getLast?_append_right _ _ (by simp)] at hc0
                              cases hc0
                              exact ⟨by decide, by decide⟩
                          · exact ⟨_, rfl⟩
                          · intro g r2 hg hnne
                            cases g with
                            | zero => omega
                            | succ g2 =>
                              have hlenV : conV.length + 1 ≤ g2 := by
                                simp only [List.length_append, List.length_cons] at hg
                                omega
                              have hnne3 : noNumExt (tk3 ++ '\x7d' :: r2) :=
                                noNumExt_ws_append tk3 _ htk3ws
                                  (noNumExt_cons '\x7d' r2 (by decide) (by decide) (by decide) (by decide))
                              have e1 : parseStrChars (kcs ++ '\"' :: (tk1 ++ ':' :: (tk2 ++ (conV ++ (tk3 ++ '\x7d' :: r2))))) =
                                  some (kcs, tk1 ++ ':' :: (tk2 ++ (conV ++ (tk3 ++ '\x7d' :: r2)))) :=
                                parseStrChars_retarget rest kcs r1 hps _
                              have e2 : skipWs (tk1 ++ ':' :: (tk2 ++ (conV ++ (tk3 ++ '\x7d' :: r2)))) =
                                  ':' :: (tk2 ++ (conV ++ (tk3 ++ '\x7d' :: r2))) :=
                                skipWs_ws_append_head tk1 _ htk1ws (by intro c0 hc0; cases hc0; decide)
                              have e3 : skipWs (tk2 ++ (conV ++ (tk3 ++ '\x7d' :: r2))) =
                                  conV ++ (tk3 ++ '\x7d' :: r2) := by
                                refine skipWs_ws_append_head tk2 _ htk2ws ?_
                                intro c0 hc0
                                rw [List.head?_append_of_ne_nil _ hneV] at hc0
                                exact isJsonWs_false_of_py _ (hhdV _ hc0).1
                              have e4 : parseF g2 PMode.val (conV ++ (tk3 ++ '\x7d' :: r2)) =
                                  some (PRes.val v, tk3 ++ '\x7d' :: r2) := hretV g2 _ hlenV hnne3
                              have e5 : skipWs (tk3 ++ '\x7d' :: r2) = '\x7d' :: r2 :=
                                skipWs_ws_append_head tk3 _ htk3ws (by intro c0 hc0; cases hc0; decide)
                              rw [show ('\"' :: (kcs ++ '\"' :: (tk1 ++ ':' :: (tk2 ++ (conV ++ (tk3 ++ ['\x7d'])))))) ++ r2 =
                                '\"' :: (kcs ++ '\"' :: (tk1 ++ ':' :: (tk2 ++ (conV ++ (tk3 ++ '\x7d' :: r2)))))
                                from by simp,
                                parseF.eq_5, if_pos rfl, e1]
                              simp [e2, e3, e4, e5]
                        · rw [if_neg hc4b] at h
                          cases h
                  · simp only [hrecv] at h
                    cases h
                  · simp only [hrecv] at h
                    cases h
              · rw [if_neg hc2] at h
                cases h
        · rw [if_neg hc1] at h
          cases h
    | elems =>
      rw [parseF.eq_6] at h
      rcases hrecv : parseF f PMode.val l with _ | ⟨⟨pv, r1⟩⟩
      · simp only [hrecv] at h
        cases h
      · rcases pv with v | fs0 | es0
        · simp only [hrecv] at h
          rcases hsw1 : skipWs r1 with _ | ⟨c2, r2a⟩
          · simp only [hsw1] at h
            cases h
          · simp only [hsw1] at h
            by_cases hc2 : c2 = ','
            · subst hc2
              rw [if_pos rfl] at h
              rcases hrece : parseF f PMode.elems (skipWs r2a) with _ | ⟨⟨pe, r3⟩⟩
              · simp only [hrece] at h
                cases h
              · rcases pe with v2 | fs | es
                · simp only [hrece] at h
                  cases h
                · simp only [hrece] at h
                  cases h
                · simp only [hrece] at h
                  cases h
                  obtain ⟨conV, hsplitV, hgcV, hhfV, hretV⟩ := ih PMode.val l (PRes.val v) r1 hrecv
                  obtain ⟨hffV, hneV, hhdV, hlaV⟩ := hgcV
                  obtain ⟨conE, hsplitE, hgcE, hhfE, hretE⟩ :=
                    ih PMode.elems (skipWs r2a) (PRes.elems es) r hrece
                  obtain ⟨hffE, hneE, hhdE, hlaE⟩ := hgcE
                  obtain ⟨tk1, htk1, htk1ws⟩ := skipWs_split r1
                  rw [hsw1] at htk1
                  obtain ⟨tk2, htk2, htk2ws⟩ := skipWs_split r2a
                  rw [hsplitE] at htk2
                  refine ⟨conV ++ (tk1 ++ ',' :: (tk2 ++ conE)), ?_, ?_, ?_, ?_⟩
                  · rw [hsplitV, htk1, htk2]
                    simp
                  · refine ⟨?_, ?_, ?_, ?_⟩
                    · rw [show conV ++ (tk1 ++ ',' :: (tk2 ++ conE)) =
                        conV ++ ((tk1 ++ ',' :: tk2) ++ conE) from by simp]
                      refine FlankFree_append _ _ hffV (FlankFree_append _ _ ?_ hffE)
                      apply FlankFree_of_all
                      intro c0 hc0
                      rcases List.mem_append.mp hc0 with hc0b | hc0b
                      · exact (isJsonWs_props c0 (htk1ws c0 hc0b)).2.2.1
                      rcases List.mem_cons.mp hc0b with rfl | hc0c
                      · decide
                      · exact (isJsonWs_props c0 (htk2ws c0 hc0c)).2.2.1
                    · intro hc
                      exact hneV (List.append_eq_nil.mp hc).1
                    · intro c0 hc0
                      rw [List.head?_append_of_ne_nil _ hneV] at hc0
                      exact hhdV c0 hc0
                    · intro c0 hc0
                      rw [show conV ++ (tk1 ++ ',' :: (tk2 ++ conE)) =
                        (conV ++ (tk1 ++ ',' :: tk2)) ++ conE from by simp,
                        getLast?_append_right _ _ hneE] at hc0
                      exact hlaE c0 hc0
                  · intro c0 hc0
                    rw [List.head?_append_of_ne_nil _ hneV] at hc0
                    exact hhfV c0 hc0
                  · intro g r2 hg hnne
                    cases g with
                    | zero => omega
                    | succ g2 =>
                      have hposE := List.length_pos.mpr hneE
                      have hposV := List.length_pos.mpr hneV
                      have hlenV : conV.length + 1 ≤ g2 := by
                        simp only [List.length_append, List.length_cons] at hg
                        omega
                      have hlenE : conE.length + 1 ≤ g2 := by
                        simp only [List.length_append, List.length_cons] at hg
                        omega
                      have hnne1 : noNumExt (tk1 ++ ',' :: (tk2 ++ (conE ++ r2))) :=
                        noNumExt_ws_append tk1 _ htk1ws
                          (noNumExt_cons ',' _ (by decide) (by decide) (by decide) (by decide))
                      have e1 : parseF g2 PMode.val (conV ++ (tk1 ++ ',' :: (tk2 ++ (conE ++ r2)))) =
                          some (PRes.val v, tk1 ++ ',' :: (tk2 ++ (conE ++ r2))) :=
                        hretV g2 _ hlenV hnne1
                      have e2 : skipWs (tk1 ++ ',' :: (tk2 ++ (conE ++ r2))) =
                          ',' :: (tk2 ++ (conE ++ r2)) :=
                        skipWs_ws_append_head tk1 _ htk1ws (by intro c0 hc0; cases hc0; decide)
                      have e3 : skipWs (tk2 ++ (conE ++ r2)) = conE ++ r2 := by
                        refine skipWs_ws_append_head tk2 _ htk2ws ?_
                        intro c0 hc0
                        rw [List.head?_append_of_ne_nil _ hneE] at hc0
                        exact isJsonWs_false_of_py _ (hhdE _ hc0).1
                      have e4 : parseF g2 PMode.elems (conE ++ r2) = some (PRes.elems es, r2) :=
                        hretE g2 r2 hlenE hnne
                      rw [show (conV ++ (tk1 ++ ',' :: (tk2 ++ conE))) ++ r2 =
                        conV ++ (tk1 ++ ',' :: (tk2 ++ (conE ++ r2))) from by simp,
                        parseF.eq_6, e1]
                      simp [e2, e3, e4]
            · rw [if_neg hc2] at h
              by_cases hc2b : c2 = ']'
              · subst hc2b
                rw [if_pos rfl] at h
                cases h
                obtain ⟨conV, hsplitV, hgcV, hhfV, hretV⟩ := ih PMode.val l (PRes.val v) r1 hrecv
                obtain ⟨hffV, hneV, hhdV, hlaV⟩ := hgcV
                obtain ⟨tk, htk, htkws⟩ := skipWs_split r1
                rw [hsw1] at htk
                refine ⟨conV ++ (tk ++ [']']), ?_, ?_, ?_, ?_⟩
                · rw [hsplitV, htk]
                  simp
                · refine ⟨?_, ?_, ?_, ?_⟩
                  · refine FlankFree_append _ _ hffV ?_
                    apply FlankFree_of_all
                    intro c0 hc0
                    rcases List.mem_append.mp hc0 with hc0b | hc0b
                    · exact (isJsonWs_props c0 (htkws c0 hc0b)).2.2.1
                    · rcases List.mem_singleton.mp hc0b with rfl
                      decide
                  · intro hc
                    exact hneV (List.append_eq_nil.mp hc).1
                  · intro c0 hc0
                    rw [List.head?_append_of_ne_nil _ hneV] at hc0
                    exact hhdV c0 hc0
                  · intro c0 hc0
                    rw [getLast?_append_right _ _ (by simp),
                      getLast?_append_right tk [']'] (by simp)] at hc0
                    cases hc0
                    exact ⟨by decide, by decide⟩
                · intro c0 hc0
                  rw [List.head?_append_of_ne_nil _ hneV] at hc0
                  exact hhfV c0 hc0
                · intro g r2 hg hnne
                  cases g with
                  | zero => omega
                  | succ g2 =>
                    have hlenV : conV.length + 1 ≤ g2 := by
                      simp only [List.length_append, List.length_cons] at hg
                      omega
                    have hnneR : noNumExt (tk ++ ']' :: r2) :=
                      noNumExt_ws_append tk _ htkws
                        (noNumExt_cons ']' r2 (by decide) (by decide) (by decide) (by decide))
                    have e1 : parseF g2 PMode.val (conV ++ (tk ++ ']' :: r2)) =
                        some (PRes.val v, tk ++ ']' :: r2) := hretV g2 _ hlenV hnneR
                    have e2 : skipWs (tk ++ ']' :: r2) = ']' :: r2 :=
                      skipWs_ws_append_head tk _ htkws (by intro c0 hc0; cases hc0; decide)
                    rw [show (conV ++ (tk ++ [']'])) ++ r2 = conV ++ (tk ++ ']' :: r2) from by simp,
                      parseF.eq_6, e1]
                    simp [e2]
              · rw [if_neg hc2b] at h
                cases h
        · simp only [hrecv] at h
          cases h
        · simp only [hrecv] at h
          cases h

/-- Structure of a successful json.loads run: leading whitespace, a
good consumed region, trailing whitespace, and replayability of the
scanner on the region. -/
theorem parseJsonList_struct (l : List Char) (v : Json)
    (h : parseJsonList l = some v) :
    ∃ lws con rest, l = lws ++ (con ++ rest) ∧
      (∀ c ∈ lws, isJsonWs c = true) ∧ (∀ c ∈ rest, isJsonWs c = true) ∧
      GoodCon con ∧ headFacts PMode.val con ∧
      ∀ g r2, con.length + 1 ≤ g → noNumExt r2 →
        parseF g PMode.val (con ++ r2) = some (PRes.val v, r2) := by
  unfold parseJsonList at h
  rcases hpv : parseValue (l.length + 1) (skipWs l) with _ | ⟨v0, rest⟩
  · rw [hpv] at h
    cases h
  · simp only [hpv] at h
    by_cases hre : (skipWs rest).isEmpty
    · rw [if_pos hre] at h
      cases h
      unfold parseValue at hpv
      rcases hpf : parseF (l.length + 1) PMode.val (skipWs l) with _ | ⟨pr, r⟩
      · rw [hpf] at hpv
        cases hpv
      · rcases pr with v1 | fs | es
        · simp only [hpf] at hpv
          cases hpv
          obtain ⟨con, hsplit, hgc, hhf, hret⟩ :=
            parseF_good (l.length + 1) PMode.val (skipWs l) (PRes.val v) rest hpf
          obtain ⟨lws, hlws, hlwsws⟩ := skipWs_split l
          rw [hsplit] at hlws
          refine ⟨lws, con, rest, hlws, hlwsws, ?_, hgc, hhf, hret⟩
          intro c hc
          have hnil : skipWs rest = [] := by
            cases hx : skipWs rest with
            | nil => rfl
            | cons a b => rw [hx] at hre; cases hre
          exact List.dropWhile_eq_nil_iff.mp hnil c hc
        · simp only [hpf] at hpv
          cases hpv
        · simp only [hpf] at hpv
          cases hpv
    · rw [if_neg hre] at h
      cases h

/-- The value scanner rejects an input headed by a backtick. -/
theorem parseF_backtick (f : Nat) (t : List Char) :
    parseF f PMode.val ('\x60' :: t) = none := by
  cases f with
  | zero => rw [parseF.eq_1]
  | succ f2 =>
    rw [parseF.eq_3, if_neg (by decide), if_neg (by decide), if_neg (by decide),
      if_neg (by simp), if_neg (by simp), if_neg (by simp), if_neg (by simp),
      if_neg (by simp),
      show parseNumLex ('\x60' :: t) = none from rfl]
    simp

/-- json.loads fails on an input whose first character is a backtick. -/
theorem parseJsonList_backtick (t : List Char) :
    parseJsonList ('\x60' :: t) = none := by
  unfold parseJsonList
  rw [skipWs_eq_self _ (by intro c hc; cases hc; decide)]
  unfold parseValue
  rw [parseF_backtick]

/-- str.strip is the identity when both ends are non-whitespace. -/
theorem pyStripChars_eq_self (l : List Char)
    (hh : ∀ c, l.head? = some c → isPySpace c = false)
    (hl : ∀ c, l.getLast? = some c → isPySpace c = false) :
    pyStripChars l = l := by
  unfold pyStripChars dropTrailWs
  rw [dropWhile_eq_self_of_head isPySpace l hh,
    dropWhile_eq_self_of_head isPySpace l.reverse
      (by intro c hc; rw [List.head?_reverse] at hc; exact hl c hc),
    List.reverse_reverse]

/-- The substitution scan of the empty list is empty. -/
theorem reSubF_nil (f : Nat) (p : Option Char) : reSubF f p [] = [] := by
  cases f with
  | zero => rfl
  | succ f2 => rfl

/-- The first fence alternative needs its line-start anchor. -/
theorem alt1Split_false (l : List Char) : alt1Split false l = none := rfl

/-- The first fence alternative needs a backtick at the match point. -/
theorem alt1Split_none_of_head (b : Bool) (l : List Char)
    (h : ∀ c, l.head? = some c → c ≠ '\x60') : alt1Split b l = none := by
  cases b with
  | false => rfl
  | true =>
    rcases l with _ | ⟨c1, _ | ⟨c2, _ | ⟨c3, r⟩⟩⟩
    · rfl
    · rfl
    · rfl
    · unfold alt1Split
      rw [if_pos rfl]
      have hc1 : ¬ (c1 = '\x60') := h c1 rfl
      simp [hc1]

/-- Inside a good consumed region the second fence alternative cannot
match: any backtick run is flanked on the right by a non-newline within
the region, and the region ends in a non-whitespace non-backtick
character. -/
theorem alt2Split_none_inside (d tail0 : List Char) (hdne : d ≠ [])
    (hlast : ∀ c, d.getLast? = some c → isPySpace c = false ∧ c ≠ '\x60')
    (hflank : ∀ a b, d = a ++ '\x60' :: b → ∃ y, b.head? = some y ∧ y ≠ '\n') :
    alt2Split (d ++ tail0) = none := by
  have hdp : d.dropWhile isPySpace ≠ [] := by
    intro hc
    have hall := List.dropWhile_eq_nil_iff.mp hc
    obtain ⟨x, hx⟩ : ∃ x, d.getLast? = some x := by
      cases hd : d with
      | nil => exact absurd hd hdne
      | cons a b =>
        exact ⟨(a :: b).getLast (by simp), List.getLast?_eq_getLast _ _⟩
    have h1 := (hlast x hx).1
    have h2 := hall x (List.mem_of_mem_getLast? hx)
    rw [h2] at h1
    cases h1
  have hsplit2 : (d ++ tail0).dropWhile isPySpace =
      (d.dropWhile isPySpace) ++ tail0 := by
    rw [List.dropWhile_append, if_neg (by simpa using hdp)]
  obtain ⟨tk, htked⟩ : ∃ tk, d = tk ++ d.dropWhile isPySpace :=
    ⟨d.takeWhile isPySpace, (List.takeWhile_append_dropWhile isPySpace d).symm⟩
  unfold alt2Split
  rw [hsplit2]
  rcases hdps : d.dropWhile isPySpace with _ | ⟨c1, dp1⟩
  · exact absurd hdps hdp
  rw [hdps] at htked
  simp only [List.cons_append]
  by_cases h1 : c1 = '\x60'
  · subst h1
    obtain ⟨y1, hy1h, hy1⟩ := hflank _ _ htked
    rcases dp1 with _ | ⟨c2, dp2⟩
    · cases hy1h
    have hc2nl : c2 ≠ '\n' := by rw [Option.some.inj hy1h]; exact hy1
    by_cases h2 : c2 = '\x60'
    · subst h2
      obtain ⟨y2, hy2h, hy2⟩ := hflank (tk ++ ['\x60']) dp2
        (by rw [htked]; simp)
      rcases dp2 with _ | ⟨c3, dp3⟩
      · cases hy2h
      have hc3nl : c3 ≠ '\n' := by rw [Option.some.inj hy2h]; exact hy2
      by_cases h3 : c3 = '\x60'
      · subst h3
        obtain ⟨y3, hy3h, hy3⟩ := hflank (tk ++ ['\x60', '\x60']) dp3
          (by rw [htked]; simp)
        rcases dp3 with _ | ⟨c4, dp4⟩
        · cases hy3h
        have hc4nl : c4 ≠ '\n' := by rw [Option.some.inj hy3h]; exact hy3
        simp [hc4nl]
      · simp [h3]
    · rcases dp2 with _ | ⟨c3, dp3⟩
      · rcases tail0 with _ | ⟨t1, tt⟩
        · simp
        · simp [h2]
      · simp [h2]
  · rcases dp1 with _ | ⟨c2, dp2⟩
    · rcases tail0 with _ | ⟨t1, tt⟩
      · simp
      · rcases tt with _ | ⟨t2, tt2⟩
        · simp
        · simp [h1]
    · rcases dp2 with _ | ⟨c3, dp3⟩
      · rcases tail0 with _ | ⟨t1, tt⟩
        · simp
        · simp [h1]
      · simp [h1]

/-- Scanning a good consumed region followed by trailing whitespace and
a closing fence: no pattern alternative fires inside the region, and at
its end the second alternative swallows the rest, leaving exactly the
region. -/
theorem reSubF_scan (restWs : List Char) (hws : ∀ c ∈ restWs, isJsonWs c = true)
    (d : List Char) :
    ∀ e fuel prev, GoodCon (e ++ d) → (e ≠ [] → prev = e.getLast?) →
      d.length + 1 ≤ fuel →
      reSubF fuel prev (d ++ (restWs ++ '\n' :: ['\x60', '\x60', '\x60'])) = d := by
  induction d with
  | nil =>
    intro e fuel prev hgc hprev hfuel
    cases fuel with
    | zero => omega
    | succ f =>
      have hcne : e ≠ [] := by
        intro he
        exact hgc.2.1 (by rw [he]; rfl)
      obtain ⟨x, hx⟩ : ∃ x, e.getLast? = some x := by
        cases hee : e with
        | nil => exact absurd hee hcne
        | cons a b =>
          exact ⟨(a :: b).getLast (by simp), List.getLast?_eq_getLast _ _⟩
      have halt1 : alt1Split (decide (prev = none) || decide (prev = some '\n'))
          (restWs ++ '\n' :: ['\x60', '\x60', '\x60']) = none := by
        apply alt1Split_none_of_head
        intro c hc
        cases restWs with
        | nil =>
          cases hc
          decide
        | cons w ws =>
          cases hc
          exact (isJsonWs_props _ (hws _ (by simp))).2.2.1
      have hdrop : (restWs ++ '\n' :: ['\x60', '\x60', '\x60']).dropWhile isPySpace =
          ['\x60', '\x60', '\x60'] := by
        rw [show restWs ++ '\n' :: ['\x60', '\x60', '\x60'] =
          (restWs ++ ['\n']) ++ ['\x60', '\x60', '\x60'] from by simp,
          (takeWhile_append_all isPySpace (restWs ++ ['\n']) _ ?_).2]
        · rfl
        · intro c hc
          rcases List.mem_append.mp hc with hc2 | hc2
          · exact (isJsonWs_props _ (hws _ hc2)).1
          · rcases List.mem_singleton.mp hc2 with rfl
            decide
      have halt2 : alt2Split (restWs ++ '\n' :: ['\x60', '\x60', '\x60']) =
          some ((restWs ++ '\n' :: ['\x60', '\x60', '\x60']).takeWhile isPySpace ++
            ['\x60', '\x60', '\x60'], []) := by
        unfold alt2Split
        rw [hdrop]
        rfl
      rcases hsh : restWs ++ '\n' :: ['\x60', '\x60', '\x60'] with _ | ⟨c1, t1⟩
      · cases restWs <;> cases hsh
      rw [List.nil_append, reSubF.eq_3]
      rw [hsh] at halt1 halt2
      simp only [halt1, halt2, reSubF_nil]
  | cons c d2 ihd =>
    intro e fuel prev hgc hprev hfuel
    cases fuel with
    | zero => omega
    | succ f =>
      have hghead := hgc.2.2.1
      have hglast := hgc.2.2.2
      have halt1 : alt1Split (decide (prev = none) || decide (prev = some '\n'))
          ((c :: d2) ++ (restWs ++ '\n' :: ['\x60', '\x60', '\x60'])) = none := by
        by_cases hcb : c = '\x60'
        · have hee : e ≠ [] := by
            intro he
            subst he
            exact (hghead c rfl).2 hcb
          have hprev2 := hprev hee
          obtain ⟨x, hx1, hx2⟩ := (hgc.1 e d2 (by rw [hcb])).1
          have hb : (decide (prev = none) || decide (prev = some '\n')) = false := by
            rw [hprev2, hx1]
            simp [hx2]
          rw [hb]
          exact alt1Split_false _
        · apply alt1Split_none_of_head
          intro c0 hc0
          cases hc0
          exact hcb
      have halt2 : alt2Split ((c :: d2) ++ (restWs ++ '\n' :: ['\x60', '\x60', '\x60'])) =
          none := by
        apply alt2Split_none_inside _ _ (by simp)
        · intro c0 hc0
          refine hglast c0 ?_
          rw [getLast?_append_right _ _ (by simp)]
          exact hc0
        · intro a b hab
          have hfa := hgc.1 (e ++ a) b (by rw [List.append_assoc, ← hab])
          exact hfa.2
      rw [show (c :: d2) ++ (restWs ++ '\n' :: ['\x60', '\x60', '\x60']) =
        c :: (d2 ++ (restWs ++ '\n' :: ['\x60', '\x60', '\x60'])) from rfl,
        reSubF.eq_3]
      simp only [← List.cons_append, halt1, halt2]
      rw [ihd (e ++ [c]) f (some c) ?_ ?_ ?_]
      · rw [List.append_assoc]
        simpa using hgc
      · intro _
        rw [getLast?_append_right e [c] (by simp)]
        rfl
      · simp only [List.length_cons] at hfuel
        omega

/-- The first alternative on a tagged fence head: it consumes the three
backticks, the tag, and the following whitespace run. -/
theorem alt1Split_fence_tag (r : List Char) :
    alt1Split true ('\x60' :: '\x60' :: '\x60' :: 'j' :: 's' :: 'o' :: 'n' :: '\n' :: r) =
    some ('\x60' :: '\x60' :: '\x60' :: ('j' :: 's' :: 'o' :: 'n' ::
      (('\n' :: r).takeWhile isPySpace)), ('\n' :: r).dropWhile isPySpace) := rfl

/-- The first alternative on an untagged fence head. -/
theorem alt1Split_fence_notag (r : List Char) :
    alt1Split true ('\x60' :: '\x60' :: '\x60' :: '\n' :: r) =
    some ('\x60' :: '\x60' :: '\x60' :: (('\n' :: r).takeWhile isPySpace),
      ('\n' :: r).dropWhile isPySpace) := by
  rcases r with _ | ⟨x1, _ | ⟨x2, _ | ⟨x3, r3⟩⟩⟩ <;> rfl

/-- json.loads succeeds on exactly the consumed region of a successful
run. -/
theorem parseJsonList_of_retarget (con : List Char) (v : Json)
    (hhd : ∀ c, con.head? = some c → isPySpace c = false ∧ c ≠ '\x60')
    (hret : ∀ g r2, con.length + 1 ≤ g → noNumExt r2 →
      parseF g PMode.val (con ++ r2) = some (PRes.val v, r2)) :
    parseJsonList con = some v := by
  unfold parseJsonList parseValue
  have h1 : skipWs con = con :=
    skipWs_eq_self con (fun c hc => isJsonWs_false_of_py c (hhd c hc).1)
  have h2 : parseF (con.length + 1) PMode.val con = some (PRes.val v, []) := by
    have h3 := hret (con.length + 1) [] (le_refl _) noNumExt_nil
    rwa [List.append_nil] at h3
  rw [h1, h2]
  rfl

/-- Direct parse success short-circuits safe_json_parse. -/
theorem safe_json_parse_direct (s : String) (v : Json)
    (h : parseJson s = some v) : safe_json_parse s = Except.ok v := by
  unfold safe_json_parse
  rw [h]

/-- Computation of the whitespace run the fence pattern swallows after
the opening fence: it ends exactly where the consumed region starts. -/
theorem fence_drop_take (lws con rest : List Char)
    (hlws : ∀ c ∈ lws, isJsonWs c = true)
    (hhd : ∀ c, con.head? = some c → isPySpace c = false ∧ c ≠ '\x60')
    (hne : con ≠ []) :
    ('\n' :: ((lws ++ (con ++ rest)) ++ '\n' :: ['\x60', '\x60', '\x60'])).dropWhile isPySpace =
      con ++ (rest ++ '\n' :: ['\x60', '\x60', '\x60']) := by
  rw [show '\n' :: ((lws ++ (con ++ rest)) ++ '\n' :: ['\x60', '\x60', '\x60']) =
      ('\n' :: lws) ++ (con ++ (rest ++ '\n' :: ['\x60', '\x60', '\x60'])) from by simp,
    (takeWhile_append_all isPySpace ('\n' :: lws) _ ?_).2,
    (takeWhile_head_stop isPySpace _ ?_).2]
  · intro c hc
    rw [List.head?_append_of_ne_nil _ hne] at hc
    exact (hhd c hc).1
  · intro c hc
    rcases List.mem_cons.mp hc with rfl | hc2
    · decide
    · exact (isJsonWs_props _ (hlws _ hc2)).1

/-- Fence stripping: wrapping a directly-parsable payload in code fences
leads safe_json_parse to the same value through its second stage. -/
theorem safe_json_parse_fence (s : String) (v : Json) (tag : Bool)
    (h : parseJson s = some v) :
    safe_json_parse (wrapFence tag s) = Except.ok v := by
  obtain ⟨lws, con, rest, hsplit, hlws, hrest, hgc, hhf, hret⟩ :=
    parseJsonList_struct s.data v h
  cases tag with
  | false =>
    have hdata : (wrapFence false s).data =
        '\x60' :: '\x60' :: '\x60' :: '\n' :: (s.data ++ '\n' :: ['\x60', '\x60', '\x60']) := by
      rw [show wrapFence false s = "```\n" ++ s ++ "\n```" from rfl,
        String.data_append, String.data_append,
        show ("```\n" : String).data = ['\x60', '\x60', '\x60', '\n'] from rfl,
        show ("\n```" : String).data = ['\n', '\x60', '\x60', '\x60'] from rfl]
      simp
    have hone : parseJson (wrapFence false s) = none := by
      rw [show parseJson (wrapFence false s) =
        parseJsonList ((wrapFence false s).data) from rfl, hdata]
      exact parseJsonList_backtick _
    have hstrip : pyStripChars ((wrapFence false s).data) = (wrapFence false s).data := by
      refine pyStripChars_eq_self _ ?_ ?_
      · intro c hc
        rw [hdata] at hc
        cases hc
        decide
      · intro c hc
        rw [hdata, show '\x60' :: '\x60' :: '\x60' :: '\n' :: (s.data ++ '\n' :: ['\x60', '\x60', '\x60']) =
          ('\x60' :: '\x60' :: '\x60' :: '\n' :: (s.data ++ ['\n', '\x60', '\x60'])) ++ ['\x60'] from by simp,
          getLast?_append_right _ _ (by simp)] at hc
        cases hc
        decide
    have hre : reSub ((wrapFence false s).data) = con := by
      rw [hdata]
      unfold reSub
      rw [show ('\x60' :: '\x60' :: '\x60' :: '\n' :: (s.data ++ '\n' :: ['\x60', '\x60', '\x60'])).length + 1 =
        Nat.succ (('\x60' :: '\x60' :: '\x60' :: '\n' :: (s.data ++ '\n' :: ['\x60', '\x60', '\x60'])).length) from rfl,
        reSubF.eq_3,
        show (decide ((none : Option Char) = none) ||
          decide ((none : Option Char) = some '\n')) = true from rfl]
      simp only [alt1Split_fence_notag]
      rw [hsplit, fence_drop_take lws con rest hlws hgc.2.2.1 hgc.2.1]
      refine reSubF_scan rest hrest con [] _ _ (by simpa using hgc)
        (fun hx => absurd rfl hx) ?_
      simp only [List.length_cons, List.length_append]
      omega
    have htwo : parseJsonList (reSub (pyStripChars ((wrapFence false s).data))) = some v := by
      rw [hstrip, hre]
      exact parseJsonList_of_retarget con v hgc.2.2.1 hret
    unfold safe_json_parse
    simp only [hone, htwo]
  | true =>
    have hdata : (wrapFence true s).data =
        '\x60' :: '\x60' :: '\x60' :: 'j' :: 's' :: 'o' :: 'n' :: '\n' ::
          (s.data ++ '\n' :: ['\x60', '\x60', '\x60']) := by
      rw [show wrapFence true s = "```json\n" ++ s ++ "\n```" from rfl,
        String.data_append, String.data_append,
        show ("```json\n" : String).data =
          ['\x60', '\x60', '\x60', 'j', 's', 'o', 'n', '\n'] from rfl,
        show ("\n```" : String).data = ['\n', '\x60', '\x60', '\x60'] from rfl]
      simp
    have hone : parseJson (wrapFence true s) = none := by
      rw [show parseJson (wrapFence true s) =
        parseJsonList ((wrapFence true s).data) from rfl, hdata]
      exact parseJsonList_backtick _
    have hstrip : pyStripChars ((wrapFence true s).data) = (wrapFence true s).data := by
      refine pyStripChars_eq_self _ ?_ ?_
      · intro c hc
        rw [hdata] at hc
        cases hc
        decide
      · intro c hc
        rw [hdata, show '\x60' :: '\x60' :: '\x60' :: 'j' :: 's' :: 'o' :: 'n' :: '\n' ::
            (s.data ++ '\n' :: ['\x60', '\x60', '\x60']) =
          ('\x60' :: '\x60' :: '\x60' :: 'j' :: 's' :: 'o' :: 'n' :: '\n' ::
            (s.data ++ ['\n', '\x60', '\x60'])) ++ ['\x60'] from by simp,
          getLast?_append_right _ _ (by simp)] at hc
        cases hc
        decide
    have hre : reSub ((wrapFence true s).data) = con := by
      rw [hdata]
      unfold reSub
      rw [show ('\x60' :: '\x60' :: '\x60' :: 'j' :: 's' :: 'o' :: 'n' :: '\n' ::
          (s.data ++ '\n' :: ['\x60', '\x60', '\x60'])).length + 1 =
        Nat.succ (('\x60' :: '\x60' :: '\x60' :: 'j' :: 's' :: 'o' :: 'n' :: '\n' ::
          (s.data ++ '\n' :: ['\x60', '\x60', '\x60'])).length) from rfl,
        reSubF.eq_3,
        show (decide ((none : Option Char) = none) ||
          decide ((none : Option Char) = some '\n')) = true from rfl]
      simp only [alt1Split_fence_tag]
      rw [hsplit, fence_drop_take lws con rest hlws hgc.2.2.1 hgc.2.1]
      refine reSubF_scan rest hrest con [] _ _ (by simpa using hgc)
        (fun hx => absurd rfl hx) ?_
      simp only [List.length_cons, List.length_append]
      omega
    have htwo : parseJsonList (reSub (pyStripChars ((wrapFence true s).data))) = some v := by
      rw [hstrip, hre]
      exact parseJsonList_of_retarget con v hgc.2.2.1 hret
    unfold safe_json_parse
    simp only [hone, htwo]

/-- C7: For every string s that parses directly as a JSON object,
wrapping s in triple-backtick code fences (optionally with a json
language tag) yields an input on which safe_json_parse returns the same
parsed value as safe_json_parse applied to s itself. -/
theorem c7_fence (s : String) (fs : List (String × Json)) (tag : Bool)
    (h : parseJson s = some (Json.obj fs)) :
    safe_json_parse (wrapFence tag s) = Except.ok (Json.obj fs) ∧
    safe_json_parse s = Except.ok (Json.obj fs) :=
  ⟨safe_json_parse_fence s (Json.obj fs) tag h,
    safe_json_parse_direct s (Json.obj fs) h⟩

/-- Closed instance of c7_fence on a concrete object payload with the
tagged fence. -/
theorem c7_witness :
    parseJson "\x7b\"a\": 1\x7d" = some (Json.obj [("a", Json.num "1")]) ∧
    safe_json_parse (wrapFence true "\x7b\"a\": 1\x7d") =
      Except.ok (Json.obj [("a", Json.num "1")]) ∧
    safe_json_parse "\x7b\"a\": 1\x7d" =
      Except.ok (Json.obj [("a", Json.num "1")]) :=
  ⟨rfl, (c7_fence "\x7b\"a\": 1\x7d" [("a", Json.num "1")] true rfl).1,
    (c7_fence "\x7b\"a\": 1\x7d" [("a", Json.num "1")] true rfl).2⟩
